import Mathlib

/-!
# Verification of `frictionless_ckan_mapper/converter.py`

A shallow embedding of the CKAN dataset ↔ Data Package converter.

Python values flowing through the converter are JSON-like: `None`, booleans,
integers, strings, lists and string-keyed dicts.  We model them with the
inductive type `Val`.  Python dicts are modelled as association lists
(`Obj := List (String × Val)`) with insertion-order semantics: `oget` reads
the first binding of a key, `dset` replaces the first binding in place or
appends a fresh one at the end — exactly the observable behaviour of a
Python dict that never holds duplicate keys.

External collaborators are kept abstract, as the code treats them:
* `slug : String → String` models `slugify.slugify`;
* `jl : String → Option Val` models `json.loads` (`none` = decode failure);
* `jd : Val → String` models `json.dumps`.

Fallible code is modelled in `Except PyErr`, where `PyErr` mirrors the
Python exceptions the converter can raise.
-/

namespace FCM

inductive Val where
  | null : Val
  | bool : Bool → Val
  | int : Int → Val
  | str : String → Val
  | list : List Val → Val
  | dict : List (String × Val) → Val

abbrev Obj := List (String × Val)

mutual

/-- Python `==` on the JSON-like values the converter handles
(structural equality). -/
def Val.beq : Val → Val → Bool
  | .null, .null => true
  | .bool a, .bool b => a == b
  | .int a, .int b => a == b
  | .str a, .str b => a == b
  | .list as, .list bs => Val.beqList as bs
  | .dict as, .dict bs => Val.beqPairs as bs
  | _, _ => false

def Val.beqList : List Val → List Val → Bool
  | [], [] => true
  | a :: as, b :: bs => Val.beq a b && Val.beqList as bs
  | _, _ => false

def Val.beqPairs : List (String × Val) → List (String × Val) → Bool
  | [], [] => true
  | (k, a) :: as, (k', b) :: bs => k == k' && Val.beq a b && Val.beqPairs as bs
  | _, _ => false

end

/-- Python truthiness of a JSON-like value: `None`, `False`, `0`, `""`,
`[]` and `{}` are falsy, everything else truthy. -/
def truthy : Val → Bool
  | .null => false
  | .bool b => b
  | .int n => n != 0
  | .str s => s != ""
  | .list xs => !xs.isEmpty
  | .dict xs => !xs.isEmpty

/-- The Python exceptions the converter can raise. -/
inductive PyErr where
  | keyError : String → PyErr
  | attributeError : PyErr
  | typeError : PyErr
  | notImplementedError : PyErr
  deriving DecidableEq

/-- `d.get(k)`: first binding of `k`, if any (Python dicts have unique keys;
all dicts the converter builds do). -/
def oget : Obj → String → Option Val
  | [], _ => none
  | (k', v) :: rest, k => if k' = k then some v else oget rest k

/-- `d.get(k)` is truthy. -/
def otruthy (o : Obj) (k : String) : Bool :=
  match oget o k with
  | some v => truthy v
  | none => false

/-- `d[k]`: mandatory lookup, `KeyError` when absent. -/
def getItem (o : Obj) (k : String) : Except PyErr Val :=
  match oget o k with
  | some v => .ok v
  | none => .error (.keyError k)

/-- `d[k] = v`: replace the first binding of `k` in place, else append. -/
def dset : Obj → String → Val → Obj
  | [], k, v => [(k, v)]
  | (k', v') :: rest, k, v =>
    if k' = k then (k, v) :: rest else (k', v') :: dset rest k v

/-- `d.update(p)`: fold `dset` over `p` in order. -/
def dupdate (o : Obj) : Obj → Obj
  | [] => o
  | (k, v) :: rest => dupdate (dset o k v) rest

/-- `if d.get(src): dst[dstKey] = d[src]` — the conditional-copy idiom used
throughout the converter. -/
def copyIf (d : Obj) (src : String) (dst : Obj) (dstKey : String) : Obj :=
  match oget d src with
  | some v => if truthy v then dset dst dstKey v else dst
  | none => dst

/-- Effectful map over a list, stopping at the first error (the behaviour
of a Python list comprehension whose body can raise). -/
def mapExcept (f : α → Except PyErr β) : List α → Except PyErr (List β)
  | [] => .ok []
  | a :: as =>
    match f a with
    | .error e => .error e
    | .ok b =>
      match mapExcept f as with
      | .error e => .error e
      | .ok bs => .ok (b :: bs)

/-! ## Decimal rendering of the de-duplication counter (Python `str(counter)`) -/

/-- The character of a decimal digit. -/
def digitChar (d : Nat) : Char := Char.ofNat (48 + d)

/-- Decimal digits, most significant first, computed with explicit fuel so
the definition is structural (and hence reduces definitionally).  The fuel
is always sufficient: each step divides `n` by ten. -/
def natDigitsAux : Nat → Nat → List Char
  | 0, _ => []
  | fuel + 1, n =>
    if n < 10 then [digitChar n]
    else natDigitsAux fuel (n / 10) ++ [digitChar (n % 10)]

/-- Decimal digits of `n`, most significant first (the characters of
Python's `str(n)` for a non-negative integer). -/
def natDigits (n : Nat) : List Char := natDigitsAux (n + 1) n

/-- Python `str(n)` for a natural number. -/
def natStr (n : Nat) : String := ⟨natDigits n⟩

/-- Python `s.lower()` (character-wise lower-casing). -/
def strLower (s : String) : String := ⟨s.data.map Char.toLower⟩

/-- Python `s.strip()`: drop leading and trailing whitespace. -/
def strTrim (s : String) : String :=
  ⟨((s.data.dropWhile Char.isWhitespace).reverse.dropWhile
      Char.isWhitespace).reverse⟩

/-! ## Dataset → Package: `_convert_to_datapackage_resource` (converter.py 10–45) -/

/-- Lines 14–45.  `slug` models `slugify.slugify`; the source then calls
`.lower()` on its result, modelled with `strLower`.  `jl` models
`json.loads` (`none` = `ValueError`).  A non-string truthy `name` is
modelled as a type error (the external slugifier is only specified on
strings); a resource that is not a dict raises on its first `.get`. -/
def convert_to_datapackage_resource (slug : String → String)
    (jl : String → Option Val) (rv : Val) : Except PyErr Obj :=
  match rv with
  | .dict resource_dict =>
    let r : Obj := copyIf resource_dict "url" [] "path"
    let r : Obj := copyIf resource_dict "description" r "description"
    let r : Obj := copyIf resource_dict "format" r "format"
    let r : Obj := copyIf resource_dict "hash" r "hash"
    match oget resource_dict "name" with
    | some nv =>
      if truthy nv then
        match nv with
        | .str s =>
          let r := dset r "name" (.str (strLower (slug s)))
          let r := dset r "title" (.str s)
          .ok (schemaStep jl resource_dict r)
        | _ => .error .typeError
      else
        match getItem resource_dict "id" with
        | .ok idv => .ok (schemaStep jl resource_dict (dset r "name" idv))
        | .error e => .error e
    | none =>
      match getItem resource_dict "id" with
      | .ok idv => .ok (schemaStep jl resource_dict (dset r "name" idv))
      | .error e => .error e
  | _ => .error .attributeError
where
  /-- Lines 35–43: a string schema is decoded when possible and kept raw on
  failure; a dict schema is copied verbatim; anything else is skipped. -/
  schemaStep (jl : String → Option Val) (resource_dict : Obj) (r : Obj) : Obj :=
    match oget resource_dict "schema" with
    | some (.str s) => dset r "schema" ((jl s).getD (.str s))
    | some (.dict m) => dset r "schema" (.dict m)
    | _ => r

/-! ## Dataset → Package: the field parsers (converter.py 152–256) -/

/-- `_rename_dict_key` (lines 152–160). -/
def rename_dict_key (original_key destination_key : String) (the_dict : Obj) : Obj :=
  copyIf the_dict original_key [] destination_key

/-- `_parse_ckan_url` (lines 163–169). -/
def parse_ckan_url (dataset_dict : Obj) : Obj :=
  copyIf dataset_dict "ckan_url" [] "homepage"

/-- `_parse_notes` (lines 172–178). -/
def parse_notes (dataset_dict : Obj) : Obj :=
  copyIf dataset_dict "notes" [] "description"

/-- `_parse_license` (lines 181–195). -/
def parse_license (dataset_dict : Obj) : Obj :=
  let dataset_license : Obj := copyIf dataset_dict "license_id" [] "type"
  let dataset_license : Obj := copyIf dataset_dict "license_title" dataset_license "title"
  let dataset_license : Obj := copyIf dataset_dict "license_url" dataset_license "url"
  if dataset_license.isEmpty then [] else [("license", .dict dataset_license)]

/-- `_parse_author_and_source` (lines 198–212). -/
def parse_author_and_source (dataset_dict : Obj) : Obj :=
  let source : Obj := copyIf dataset_dict "author" [] "name"
  let source : Obj := copyIf dataset_dict "author_email" source "email"
  let source : Obj := copyIf dataset_dict "url" source "web"
  if source.isEmpty then [] else [("sources", .list [.dict source])]

/-- `_parse_maintainer` (lines 215–227). -/
def parse_maintainer (dataset_dict : Obj) : Obj :=
  let author : Obj := copyIf dataset_dict "maintainer" [] "name"
  let author : Obj := copyIf dataset_dict "maintainer_email" author "email"
  if author.isEmpty then [] else [("author", .dict author)]

/-- `_parse_tags` (lines 230–238): `tag['name']` for each tag in
`dataset_dict.get('tags', [])`.  Iterating a non-list is modelled as a type
error; a tag that is not a dict or lacks `name` raises as in Python. -/
def parse_tags (dataset_dict : Obj) : Except PyErr Obj :=
  match (oget dataset_dict "tags").getD (.list []) with
  | .list tags =>
    match mapExcept (fun t =>
        match t with
        | .dict tag => getItem tag "name"
        | _ => .error .typeError) tags with
    | .error e => .error e
    | .ok keywords =>
      if keywords.isEmpty then .ok [] else .ok [("keywords", .list keywords)]
  | _ => .error .typeError

/-- `_parse_extras` (lines 241–256): each `{key, value}` pair is read
(mandatory lookups), string values are best-effort decoded (`json.loads`
failure — and the `TypeError` on non-strings — is caught and the raw value
kept), and the pairs are collected into a dict.  Non-string keys (legal in
Python when hashable) are out of scope and modelled as a type error. -/
def parse_extras (jl : String → Option Val) (dataset_dict : Obj) : Except PyErr Obj :=
  match (oget dataset_dict "extras").getD (.list []) with
  | .list es =>
    match mapExcept (fun e =>
        match e with
        | .dict extra =>
          match getItem extra "key", getItem extra "value" with
          | .ok k, .ok v =>
            .ok (k, match v with
                    | .str s => (jl s).getD (.str s)
                    | v => v)
          | .error e, _ => .error e
          | _, .error e => .error e
        | _ => .error .typeError) es with
    | .error e => .error e
    | .ok pairs =>
      if pairs.isEmpty then .ok []
      else
        match mapExcept (fun p : Val × Val =>
            match p.1 with
            | .str k => .ok (k, p.2)
            | _ => .error .typeError) pairs with
        | .error e => .error e
        | .ok kvs => .ok [("extras", .dict (dupdate [] kvs))]
  | _ => .error .typeError

/-! ## Dataset → Package: the de-duplicator and entry point (converter.py 48–88) -/

/-- `names.keys()` membership / `names[k]` on the counter dict (Python `==`
on keys is `Val.beq`). -/
def lookupV : List (Val × Nat) → Val → Option Nat
  | [], _ => none
  | (k, c) :: rest, v => if Val.beq k v then some c else lookupV rest v

/-- `names[k] += 1`: bump the first matching counter. -/
def bumpV : List (Val × Nat) → Val → List (Val × Nat)
  | [], _ => []
  | (k, c) :: rest, v =>
    if Val.beq k v then (k, c + 1) :: rest else (k, c) :: bumpV rest v

/-- Lines 79–86: ensure unique resource names.  The first occurrence of a
name registers counter `0`; a repeat is renamed to `name + str(counter)`
(a `TypeError` when the name is not a string, as `+` would raise) and the
counter is bumped.  Renamed resources are *not* registered. -/
def dedupResources : List (Val × Nat) → List Obj → Except PyErr (List Obj)
  | _, [] => .ok []
  | names, resource :: rest =>
    match getItem resource "name" with
    | .error e => .error e
    | .ok nv =>
      match lookupV names nv with
      | some c =>
        match nv with
        | .str s =>
          match dedupResources (bumpV names nv) rest with
          | .error e => .error e
          | .ok rest' => .ok (dset resource "name" (.str (s ++ natStr c)) :: rest')
        | _ => .error .typeError
      | none =>
        match dedupResources (names ++ [(nv, 0)]) rest with
        | .error e => .error e
        | .ok rest' => .ok (resource :: rest')

/-- Lines 55–71: the parser pipeline, merged into the accumulating
descriptor with `dict.update`. -/
def runDatasetParsers (jl : String → Option Val) (dataset_dict : Obj)
    (dp : Obj) : Except PyErr Obj :=
  let dp := dupdate dp (rename_dict_key "title" "title" dataset_dict)
  let dp := dupdate dp (rename_dict_key "version" "version" dataset_dict)
  let dp := dupdate dp (parse_ckan_url dataset_dict)
  let dp := dupdate dp (parse_notes dataset_dict)
  let dp := dupdate dp (parse_license dataset_dict)
  let dp := dupdate dp (parse_author_and_source dataset_dict)
  let dp := dupdate dp (parse_maintainer dataset_dict)
  match parse_tags dataset_dict with
  | .error e => .error e
  | .ok t =>
    let dp := dupdate dp t
    match parse_extras jl dataset_dict with
    | .error e => .error e
    | .ok x => .ok (dupdate dp x)

/-- `dataset_to_datapackage` (lines 48–88).  Iterating a truthy non-list
`resources` value is modelled as a type error. -/
def dataset_to_datapackage (slug : String → String) (jl : String → Option Val)
    (dataset_dict : Obj) : Except PyErr Obj :=
  match getItem dataset_dict "name" with
  | .error e => .error e
  | .ok nv =>
    match runDatasetParsers jl dataset_dict [("name", nv)] with
    | .error e => .error e
    | .ok dp =>
      match oget dataset_dict "resources" with
      | some resources =>
        if truthy resources then
          match resources with
          | .list rs =>
            match mapExcept (convert_to_datapackage_resource slug jl) rs with
            | .error e => .error e
            | .ok crs =>
              match dedupResources [] crs with
              | .error e => .error e
              | .ok crs' => .ok (dset dp "resources" (.list (crs'.map Val.dict)))
          | _ => .error .typeError
        else .ok dp
      | none => .ok dp

/-! ## Package → Dataset: data model for resource objects

A datapackage resource object (from the `datapackage` library) carries a
descriptor dict, a storage-mode tag (`local` / `remote` / `inline`, or
multipart = none of the three) and a `source` value. -/

inductive StorageMode where
  | localMode | remoteMode | inlineMode | multipartMode
  deriving DecidableEq

structure PkgResource where
  descriptor : Obj
  mode : StorageMode
  source : Val

structure Package where
  descriptor : Obj
  resources : List PkgResource

/-! ## Package → Dataset: `_datapackage_resource_to_ckan_resource` (121–149) -/

/-- Lines 121–149.  `name = descriptor.get('title') or descriptor['name']`,
then the storage-mode branch (multipart raises `NotImplementedError`),
then description/format/hash/schema copied when truthy. -/
def datapackage_resource_to_ckan_resource (resource : PkgResource) :
    Except PyErr Obj :=
  let d := resource.descriptor
  let resource_dict : Obj :=
    if otruthy d "name" then
      match oget d "title" with
      | some tv =>
        if truthy tv then [("name", tv)]
        else [("name", (oget d "name").getD .null)]
      | none => [("name", (oget d "name").getD .null)]
    else []
  match resource.mode with
  | .localMode => .ok (tailFields d (dset resource_dict "path" resource.source))
  | .remoteMode => .ok (tailFields d (dset resource_dict "url" resource.source))
  | .inlineMode => .ok (tailFields d (dset resource_dict "data" resource.source))
  | .multipartMode => .error .notImplementedError
where
  /-- Lines 137–147: description, format, hash, schema copied when truthy. -/
  tailFields (d : Obj) (r : Obj) : Obj :=
    let r := copyIf d "description" r "description"
    let r := copyIf d "format" r "format"
    let r := copyIf d "hash" r "hash"
    copyIf d "schema" r "schema"

/-! ## Package → Dataset: the field parsers (converter.py 259–362) -/

/-- `_datapackage_parse_license` (lines 259–274).  Note the source guards
*both* `license_title` and `license_url` on `license.get('title')`, and the
second branch reads `license['url']` — a mandatory lookup that raises
`KeyError('url')` when `title` is truthy but `url` absent. -/
def datapackage_parse_license (datapackage_dict : Obj) : Except PyErr Obj :=
  match oget datapackage_dict "license" with
  | some lv =>
    if truthy lv then
      match lv with
      | .dict dataset_license =>
        let r : Obj :=
          if otruthy dataset_license "type" then
            dset [] "license_id" ((oget dataset_license "type").getD .null)
          else []
        let r : Obj :=
          if otruthy dataset_license "title" then
            dset r "license_title" ((oget dataset_license "title").getD .null)
          else r
        if otruthy dataset_license "title" then
          match getItem dataset_license "url" with
          | .ok uv => .ok (dset r "license_url" uv)
          | .error e => .error e
        else .ok r
      | .str s => .ok [("license_id", .str s)]
      | _ => .ok []
    else .ok []
  | none => .ok []

/-- `_datapackage_parse_sources` (lines 277–292): only `sources[0]` is
read.  Indexing a truthy non-list is modelled as a type error; a first
element that is not a dict raises on `.get`. -/
def datapackage_parse_sources (datapackage_dict : Obj) : Except PyErr Obj :=
  match oget datapackage_dict "sources" with
  | some sv =>
    if truthy sv then
      match sv with
      | .list (first :: _) =>
        match first with
        | .dict src =>
          let r : Obj := copyIf src "name" [] "author"
          let r : Obj := copyIf src "email" r "author_email"
          .ok (copyIf src "web" r "url")
        | _ => .error .attributeError
      | .list [] => .ok []
      | _ => .error .typeError
    else .ok []
  | none => .ok []

/-- Index (counted from the start) of the last `'>'` in a character list. -/
def lastGtIdx : List Char → Option Nat
  | [] => none
  | c :: cs =>
    match lastGtIdx cs with
    | some k => some (k + 1)
    | none => if c = '>' then some 0 else none

/-- `re.match(r'(?P<name>[^<]+)(?:<(?P<email>\S+)>)?', author)` (lines
306–311).  The greedy `[^<]+` takes the maximal `'<'`-free prefix (the match
is `None`, and `match.group` raises `AttributeError`, when that prefix is
empty).  The optional group then matches at the first `'<'`: `\S+` is a
nonempty run of non-whitespace characters followed by `'>'`, so with greedy
backtracking the email is everything up to the *last* `'>'` inside the
maximal non-whitespace run after the `'<'`, provided that `'>'` is not its
first character. -/
def matchAuthor (s : String) : Except PyErr (String × Option String) :=
  let cs := s.data
  let nameChars := cs.takeWhile (· ≠ '<')
  if nameChars.isEmpty then .error .attributeError
  else
    let rest := cs.dropWhile (· ≠ '<')
    let email : Option String :=
      match rest with
      | _ :: after =>
        let t := after.takeWhile (fun c => !c.isWhitespace)
        match lastGtIdx t with
        | some k => if 1 ≤ k then some ⟨t.take k⟩ else none
        | none => none
      | [] => none
    .ok (⟨nameChars⟩, email)

/-- `_datapackage_parse_author` (lines 295–318).  A dict author takes
`name`/`email` directly; a string author goes through the regex; any other
truthy author leaves both fields `None` (both `isinstance` checks fail).
`maintainer.strip()` on a truthy non-string raises `AttributeError`. -/
def datapackage_parse_author (datapackage_dict : Obj) : Except PyErr Obj :=
  match oget datapackage_dict "author" with
  | some av =>
    if truthy av then
      match av with
      | .dict author =>
        match oget author "name" with
        | some mv =>
          if truthy mv then
            match mv with
            | .str m =>
              .ok (emailField author [("maintainer", .str (strTrim m))])
            | _ => .error .attributeError
          else .ok (emailField author [])
        | none => .ok (emailField author [])
      | .str s =>
        match matchAuthor s with
        | .error e => .error e
        | .ok (nm, em) =>
          let r : Obj :=
            if nm ≠ "" then [("maintainer", .str (strTrim nm))] else []
          match em with
          | some e => .ok (dset r "maintainer_email" (.str e))
          | none => .ok r
      | _ => .ok []
    else .ok []
  | none => .ok []
where
  /-- Lines 304, 315–316: `maintainer_email = author.get('email')`, copied
  when truthy. -/
  emailField (author : Obj) (r : Obj) : Obj :=
    match oget author "email" with
    | some ev => if truthy ev then dset r "maintainer_email" ev else r
    | none => r

/-- `_datapackage_parse_keywords` (lines 321–329): slugify each keyword
into a tag name.  Non-string keywords are out of scope (the external
slugifier is only specified on strings) and modelled as a type error, as is
iterating a truthy non-list. -/
def datapackage_parse_keywords (slug : String → String)
    (datapackage_dict : Obj) : Except PyErr Obj :=
  match oget datapackage_dict "keywords" with
  | some kv =>
    if truthy kv then
      match kv with
      | .list ks =>
        match mapExcept (fun k =>
            match k with
            | .str s => .ok (Val.dict [("name", .str (slug s))])
            | _ => .error .typeError) ks with
        | .error e => .error e
        | .ok tags => .ok [("tags", .list tags)]
      | _ => .error .typeError
    else .ok []
  | none => .ok []

/-- Line 337–348: the hard-coded list of known descriptor fields.  Note it
does *not* contain `"extras"`. -/
def known_fields : List String :=
  ["name", "resources", "license", "title", "description", "homepage",
   "version", "sources", "author", "keywords"]

/-- `_datapackage_parse_unknown_fields_as_extras` (lines 332–362): every
descriptor key not in `known_fields` becomes a `{key, value}` extra, with
dict/list values serialized through `jd` (`json.dumps`). -/
def datapackage_parse_unknown_fields_as_extras (jd : Val → String)
    (datapackage_dict : Obj) : Obj :=
  let extras : List Val :=
    (datapackage_dict.filter (fun p => !known_fields.contains p.1)).map
      (fun p =>
        .dict [("key", .str p.1),
               ("value", match p.2 with
                         | .dict m => .str (jd (.dict m))
                         | .list l => .str (jd (.list l))
                         | v => v)])
  if extras.isEmpty then [] else [("extras", .list extras)]

/-! ## Package → Dataset: entry point (converter.py 91–118) -/

/-- Lines 97–112: the parser pipeline over the descriptor. -/
def runPackageParsers (slug : String → String) (jd : Val → String)
    (descriptor : Obj) (dd : Obj) : Except PyErr Obj :=
  let dd := dupdate dd (rename_dict_key "title" "title" descriptor)
  let dd := dupdate dd (rename_dict_key "version" "version" descriptor)
  let dd := dupdate dd (rename_dict_key "description" "notes" descriptor)
  match datapackage_parse_license descriptor with
  | .error e => .error e
  | .ok l =>
    let dd := dupdate dd l
    match datapackage_parse_sources descriptor with
    | .error e => .error e
    | .ok s =>
      let dd := dupdate dd s
      match datapackage_parse_author descriptor with
      | .error e => .error e
      | .ok a =>
        let dd := dupdate dd a
        match datapackage_parse_keywords slug descriptor with
        | .error e => .error e
        | .ok k =>
          let dd := dupdate dd k
          .ok (dupdate dd (datapackage_parse_unknown_fields_as_extras jd descriptor))

/-- `datapackage_to_dataset` (lines 91–118).  The descriptor's `name` is a
mandatory lookup and is lower-cased (`.lower()` raises `AttributeError` on
a non-string). -/
def datapackage_to_dataset (slug : String → String) (jd : Val → String)
    (datapackage : Package) : Except PyErr Obj :=
  match getItem datapackage.descriptor "name" with
  | .error e => .error e
  | .ok nv =>
    match nv with
    | .str s =>
      match runPackageParsers slug jd datapackage.descriptor
          [("name", .str (strLower s))] with
      | .error e => .error e
      | .ok dd =>
        if datapackage.resources.isEmpty then .ok dd
        else
          match mapExcept datapackage_resource_to_ckan_resource
              datapackage.resources with
          | .error e => .error e
          | .ok rs => .ok (dset dd "resources" (.list (rs.map Val.dict)))
    | _ => .error .attributeError

/-- Dataset → Package → Dataset, the round trip of §8 of the spec: the
produced descriptor is wrapped as a package with no resource objects. -/
def roundTrip (slug : String → String) (jl : String → Option Val)
    (jd : Val → String) (dataset_dict : Obj) : Except PyErr Obj :=
  match dataset_to_datapackage slug jl dataset_dict with
  | .error e => .error e
  | .ok p => datapackage_to_dataset slug jd ⟨p, []⟩

/-- The `name` value of a package-side resource dict (for stating name
uniqueness of a converted resource list). -/
def resourceName (v : Val) : Option Val :=
  match v with
  | .dict o => oget o "name"
  | _ => none

/-! ## Well-formedness (the input shapes the converter is trusted with,
per §1 of its documentation: string-keyed mappings with the field shapes
of the two schemas) -/

/-- The best-effort decode applied to each extras value (the
`try: json.loads` of lines 247–251): strings are decoded when possible and
kept raw on failure, everything else is left alone. -/
def decodeExtraVal (jl : String → Option Val) : Val → Val
  | .str s => (jl s).getD (.str s)
  | v => v

/-- A well-formed dataset tag: a dict carrying `name`. -/
def wfTag : Val → Bool
  | .dict o => (oget o "name").isSome
  | _ => false

/-- A well-formed dataset extra: a dict with a string `key` and a
`value`. -/
def wfExtra : Val → Bool
  | .dict o =>
    (match oget o "key" with
     | some (.str _) => true
     | _ => false) && (oget o "value").isSome
  | _ => false

/-- A well-formed dataset resource: a dict whose `name`, when truthy, is a
string, and which otherwise carries a string `id`. -/
def wfResource : Val → Bool
  | .dict o =>
    (match oget o "name" with
     | some nv =>
       if truthy nv then
         match nv with
         | .str _ => true
         | _ => false
       else
         match oget o "id" with
         | some (.str _) => true
         | _ => false
     | none =>
       match oget o "id" with
       | some (.str _) => true
       | _ => false)
  | _ => false

/-- A well-formed Dataset record: `tags`, `extras` and `resources`, when
present, are lists of well-formed elements. -/
def WFDataset (d : Obj) : Bool :=
  (match oget d "tags" with
   | some (.list ts) => ts.all wfTag
   | none => true
   | some _ => false) &&
  (match oget d "extras" with
   | some (.list es) => es.all wfExtra
   | none => true
   | some _ => false) &&
  (match oget d "resources" with
   | some (.list rs) => rs.all wfResource
   | none => true
   | some _ => false)

/-- Well-formed package `sources`: absent, falsy, or a list whose first
element is a dict. -/
def wfSources : Option Val → Bool
  | none => true
  | some (.list l) =>
    match l with
    | [] => true
    | f :: _ =>
      match f with
      | .dict _ => true
      | _ => false
  | some v => !truthy v

/-- Well-formed package `keywords`: absent, falsy, or a list of strings. -/
def wfKeywords : Option Val → Bool
  | none => true
  | some (.list l) => l.all (fun k =>
      match k with
      | .str _ => true
      | _ => false)
  | some v => !truthy v

/-- A well-formed Package descriptor: `sources` and `keywords` have their
schema shapes (everything else is handled by the converter for arbitrary
values). -/
def WFPackage (pkg : Package) : Bool :=
  wfSources (oget pkg.descriptor "sources") &&
  wfKeywords (oget pkg.descriptor "keywords")

/-! ## Dictionary lemmas -/

theorem oget_dset_self (o : Obj) (k : String) (v : Val) :
    oget (dset o k v) k = some v := by
  induction o with
  | nil => simp [dset, oget]
  | cons p rest ih =>
    obtain ⟨k', v'⟩ := p
    by_cases h : k' = k <;> simp [dset, oget, h, ih]

theorem oget_dset_ne (o : Obj) {k q : String} (v : Val) (h : q ≠ k) :
    oget (dset o k v) q = oget o q := by
  have hkq : ¬(k = q) := fun hh => h hh.symm
  induction o with
  | nil => simp [dset, oget, hkq]
  | cons p rest ih =>
    obtain ⟨k', v'⟩ := p
    by_cases hk : k' = k
    · subst hk
      simp [dset, oget, hkq]
    · simp only [dset, if_neg hk, oget]
      by_cases hq : k' = q <;> simp [hq, ih]

theorem oget_copyIf_ne (d : Obj) (src : String) (dst : Obj) (dk : String)
    {q : String} (h : q ≠ dk) : oget (copyIf d src dst dk) q = oget dst q := by
  unfold copyIf
  cases oget d src with
  | none => rfl
  | some v =>
    by_cases hv : truthy v <;> simp [hv, oget_dset_ne _ _ h]

theorem oget_copyIf_self (d : Obj) (src : String) (dst : Obj) (dk : String) :
    oget (copyIf d src dst dk) dk =
      if otruthy d src then oget d src else oget dst dk := by
  unfold copyIf otruthy
  cases oget d src with
  | none => simp
  | some v =>
    by_cases hv : truthy v <;> simp [hv, oget_dset_self]

theorem oget_dupdate_ne (o : Obj) (p : Obj) {q : String}
    (h : ∀ kv ∈ p, kv.1 ≠ q) : oget (dupdate o p) q = oget o q := by
  induction p generalizing o with
  | nil => rfl
  | cons kv rest ih =>
    obtain ⟨k, v⟩ := kv
    show oget (dupdate (dset o k v) rest) q = oget o q
    rw [ih _ (fun x hx => h x (List.mem_cons_of_mem _ hx))]
    exact oget_dset_ne o v (Ne.symm (h (k, v) (List.mem_cons_self _ _)))

theorem dupdate_single (o : Obj) (k : String) (v : Val) :
    dupdate o [(k, v)] = dset o k v := rfl

/-! ## Decimal strings -/

theorem isDigit_digitChar {m : Nat} (h : m < 10) : (digitChar m).isDigit := by
  interval_cases m <;> decide

theorem digitChar_inj {a b : Nat} (ha : a < 10) (hb : b < 10)
    (h : digitChar a = digitChar b) : a = b := by
  interval_cases a <;> interval_cases b <;> revert h <;> decide

theorem natDigitsAux_congr : ∀ f f' n, n < f → n < f' →
    natDigitsAux f n = natDigitsAux f' n := by
  intro f
  induction f with
  | zero => omega
  | succ f ih =>
    intro f' n hf hf'
    cases f' with
    | zero => omega
    | succ f' =>
      show natDigitsAux (f + 1) n = natDigitsAux (f' + 1) n
      unfold natDigitsAux
      by_cases h : n < 10
      · simp [h]
      · have hdiv : n / 10 < n := Nat.div_lt_self (by omega) (by omega)
        simp only [h, if_false]
        rw [ih f' (n / 10) (by omega) (by omega)]

theorem natDigits_eq (n : Nat) : natDigits n =
    if n < 10 then [digitChar n]
    else natDigits (n / 10) ++ [digitChar (n % 10)] := by
  show natDigitsAux (n + 1) n = _
  unfold natDigitsAux
  by_cases h : n < 10
  · simp [h]
  · have hdiv : n / 10 < n := Nat.div_lt_self (by omega) (by omega)
    simp only [h, if_false]
    rw [natDigitsAux_congr n (n / 10 + 1) (n / 10) (by omega) (by omega)]
    rfl

theorem natDigits_ne_nil (n : Nat) : natDigits n ≠ [] := by
  rw [natDigits_eq]
  by_cases h : n < 10 <;> simp [h]

theorem natDigits_digits (n : Nat) : ∀ c ∈ natDigits n, c.isDigit := by
  induction n using Nat.strong_induction_on with
  | _ n ih =>
    rw [natDigits_eq]
    by_cases h : n < 10
    · simp only [h, if_true, List.mem_singleton]
      rintro c rfl
      exact isDigit_digitChar h
    · simp only [h, if_false, List.mem_append, List.mem_singleton]
      rintro c (hc | rfl)
      · exact ih (n / 10) (Nat.div_lt_self (by omega) (by omega)) c hc
      · exact isDigit_digitChar (Nat.mod_lt _ (by omega))

theorem natDigits_length_two {n : Nat} (h : ¬n < 10) :
    2 ≤ (natDigits n).length := by
  rw [natDigits_eq]
  simp only [h, if_false, List.length_append, List.length_singleton]
  cases hh : natDigits (n / 10) with
  | nil => exact absurd hh (natDigits_ne_nil _)
  | cons a l => simp

theorem natDigits_inj : ∀ {n m : Nat}, natDigits n = natDigits m → n = m := by
  intro n
  induction n using Nat.strong_induction_on with
  | _ n ih =>
    intro m h
    by_cases hn : n < 10 <;> by_cases hm : m < 10
    · rw [natDigits_eq n, natDigits_eq m] at h
      simp only [hn, hm, if_true, List.cons.injEq, and_true] at h
      exact digitChar_inj hn hm h
    · exfalso
      have h1 : (natDigits n).length = 1 := by rw [natDigits_eq]; simp [hn]
      have h2 : 2 ≤ (natDigits m).length := natDigits_length_two hm
      rw [h] at h1
      omega
    · exfalso
      have h1 : (natDigits m).length = 1 := by rw [natDigits_eq]; simp [hm]
      have h2 : 2 ≤ (natDigits n).length := natDigits_length_two hn
      rw [← h] at h1
      omega
    · rw [natDigits_eq n, natDigits_eq m] at h
      simp only [hn, hm, if_false] at h
      obtain ⟨h3, h4⟩ := List.append_inj' h (by simp)
      simp only [List.cons.injEq, and_true] at h4
      have hmod : n % 10 = m % 10 :=
        digitChar_inj (Nat.mod_lt _ (by omega)) (Nat.mod_lt _ (by omega)) h4
      have hdivlt : n / 10 < n := Nat.div_lt_self (by omega) (by omega)
      have hdiv : n / 10 = m / 10 := ih (n / 10) hdivlt h3
      omega

/-- A nonempty all-digit string: the shape of Python's `str(counter)`. -/
def isDigitStr (s : String) : Prop := s.data ≠ [] ∧ ∀ c ∈ s.data, c.isDigit

theorem isDigitStr_natStr (n : Nat) : isDigitStr (natStr n) :=
  ⟨natDigits_ne_nil n, natDigits_digits n⟩

theorem natStr_inj {n m : Nat} (h : natStr n = natStr m) : n = m := by
  apply natDigits_inj
  exact congrArg String.data h

/-! ## String-append analysis for the de-duplicator -/

theorem str_data_append (a b : String) : (a ++ b).data = a.data ++ b.data :=
  String.data_append a b

theorem str_append_right_inj {s a b : String} (h : s ++ a = s ++ b) :
    a = b := by
  apply String.ext
  have := congrArg String.data h
  rw [str_data_append, str_data_append] at this
  exact List.append_cancel_left this

/-- If two base-plus-digit-suffix strings coincide but the bases differ,
one base is the other extended by a nonempty digit string. -/
theorem append_digit_overlap {b₁ b₂ s₁ s₂ : String}
    (h : b₁ ++ s₁ = b₂ ++ s₂) (h₁ : isDigitStr s₁) (h₂ : isDigitStr s₂)
    (hne : b₁ ≠ b₂) :
    ∃ t : String, isDigitStr t ∧ (b₂ = b₁ ++ t ∨ b₁ = b₂ ++ t) := by
  have hd := congrArg String.data h
  rw [str_data_append, str_data_append] at hd
  rcases List.append_eq_append_iff.mp hd with ⟨a', ha1, ha2⟩ | ⟨c', hc1, hc2⟩
  · refine ⟨⟨a'⟩, ⟨?_, ?_⟩, Or.inl ?_⟩
    · intro hnil
      have ha0 : a' = [] := hnil
      apply hne
      apply String.ext
      rw [ha1, ha0, List.append_nil]
    · intro c hc
      have hc' : c ∈ a' := hc
      exact h₁.2 c (by rw [ha2]; exact List.mem_append_left _ hc')
    · apply String.ext
      rw [str_data_append, ha1]
  · refine ⟨⟨c'⟩, ⟨?_, ?_⟩, Or.inr ?_⟩
    · intro hnil
      have hc0 : c' = [] := hnil
      apply hne
      apply String.ext
      rw [hc1, hc0, List.append_nil]
    · intro c hc
      have hc' : c ∈ c' := hc
      exact h₂.2 c (by rw [hc2]; exact List.mem_append_left _ hc')
    · apply String.ext
      rw [str_data_append, hc1]

/-! ## Counter-dictionary lemmas -/

theorem beq_str (a b : String) : Val.beq (.str a) (.str b) = (a == b) := by
  simp [Val.beq]

theorem beq_str_iff {a b : String} : Val.beq (.str a) (.str b) = true ↔ a = b := by
  rw [beq_str]
  exact beq_iff_eq

theorem lookupV_mem {st : List (Val × Nat)} {v : Val} {c : Nat}
    (h : lookupV st v = some c) : ∃ p ∈ st, Val.beq p.1 v = true := by
  induction st with
  | nil => simp [lookupV] at h
  | cons p rest ih =>
    obtain ⟨k, c'⟩ := p
    by_cases hb : Val.beq k v
    · exact ⟨(k, c'), List.mem_cons_self _ _, hb⟩
    · simp only [lookupV, hb, if_false] at h
      obtain ⟨q, hq, hbq⟩ := ih h
      exact ⟨q, List.mem_cons_of_mem _ hq, hbq⟩

theorem lookupV_bump_self {st : List (Val × Nat)} {v : Val} {c : Nat}
    (h : lookupV st v = some c) : lookupV (bumpV st v) v = some (c + 1) := by
  induction st with
  | nil => simp [lookupV] at h
  | cons p rest ih =>
    obtain ⟨k, c'⟩ := p
    by_cases hb : Val.beq k v
    · simp only [lookupV, hb, if_true, Option.some.injEq] at h
      subst h
      simp [bumpV, lookupV, hb]
    · simp only [lookupV, hb, if_false] at h
      simp [bumpV, lookupV, hb, ih h]

theorem lookupV_bump_mono {st : List (Val × Nat)} {v w : Val} {c : Nat}
    (h : lookupV st w = some c) :
    ∃ c', lookupV (bumpV st v) w = some c' ∧ c ≤ c' := by
  induction st with
  | nil => simp [lookupV] at h
  | cons p rest ih =>
    obtain ⟨k, c'⟩ := p
    by_cases hkv : Val.beq k v <;> by_cases hkw : Val.beq k w
    · simp only [lookupV, hkw, if_true, Option.some.injEq] at h
      refine ⟨c + 1, ?_, by omega⟩
      simp [bumpV, lookupV, hkv, hkw, h]
    · simp [lookupV, hkw] at h
      exact ⟨c, by simp [bumpV, lookupV, hkv, hkw, h], le_refl _⟩
    · simp only [lookupV, hkw, if_true, Option.some.injEq] at h
      refine ⟨c, ?_, le_refl _⟩
      simp [bumpV, lookupV, hkv, hkw, h]
    · simp [lookupV, hkw] at h
      obtain ⟨c₂, hc₂, hle⟩ := ih h
      exact ⟨c₂, by simp [bumpV, lookupV, hkv, hkw, hc₂], hle⟩

theorem bumpV_keys {st : List (Val × Nat)} {v : Val} {p : Val × Nat}
    (h : p ∈ bumpV st v) : ∃ c₀, (p.1, c₀) ∈ st := by
  induction st with
  | nil => simp [bumpV] at h
  | cons q rest ih =>
    obtain ⟨k, c'⟩ := q
    by_cases hb : Val.beq k v
    · simp only [bumpV, hb, if_true] at h
      rcases List.mem_cons.mp h with rfl | hmem
      · exact ⟨c', List.mem_cons_self _ _⟩
      · exact ⟨p.2, List.mem_cons_of_mem _ (by simpa using hmem)⟩
    · simp only [bumpV, hb, if_false] at h
      rcases List.mem_cons.mp h with rfl | hmem
      · exact ⟨c', List.mem_cons_self _ _⟩
      · obtain ⟨c₀, hc₀⟩ := ih hmem
        exact ⟨c₀, List.mem_cons_of_mem _ hc₀⟩

theorem lookupV_append_some {st : List (Val × Nat)} {w : Val} {c : Nat}
    (h : lookupV st w = some c) (l : List (Val × Nat)) :
    lookupV (st ++ l) w = some c := by
  induction st with
  | nil => simp [lookupV] at h
  | cons p rest ih =>
    obtain ⟨k, c'⟩ := p
    by_cases hb : Val.beq k w
    · simp only [lookupV, hb, if_true, Option.some.injEq] at h
      subst h
      simp [lookupV, hb]
    · simp only [lookupV, hb, if_false] at h
      simp [lookupV, hb, ih h]

theorem lookupV_append_none {st : List (Val × Nat)} {w : Val}
    (h : lookupV st w = none) (l : List (Val × Nat)) :
    lookupV (st ++ l) w = lookupV l w := by
  induction st with
  | nil => rfl
  | cons p rest ih =>
    obtain ⟨k, c'⟩ := p
    by_cases hb : Val.beq k w
    · simp [lookupV, hb] at h
    · simp only [lookupV, hb, if_false] at h
      simp [lookupV, hb, ih h]

theorem lookupV_append_self_str {st : List (Val × Nat)} {s : String}
    (h : lookupV st (.str s) = none) :
    lookupV (st ++ [(.str s, 0)]) (.str s) = some 0 := by
  rw [lookupV_append_none h]
  simp [lookupV, beq_str]

/-! ## The de-duplicator produces distinct names -/

/-- The key invariant-carrying lemma for lines 79–86.  `G` over-approximates
the set of base names: every remaining resource name and every registered
counter key satisfies `G`, and `G` contains no name that extends another
`G`-name by a nonempty digit string.  `E` lists the names already emitted;
each is either registered, or of the renamed form `b ++ str j` with `j`
strictly below `b`'s current counter.  Under these invariants the
de-duplicator succeeds and emits pairwise-distinct names, all fresh
with respect to `E`. -/
theorem dedup_main (G : String → Prop)
    (hG : ∀ a b, G a → G b → ∀ t, isDigitStr t → b ≠ a ++ t) :
    ∀ (rs : List Obj) (st : List (Val × Nat)) (E : List String),
    (∀ r ∈ rs, ∃ s, oget r "name" = some (.str s) ∧ G s) →
    (∀ p ∈ st, ∃ s, p.1 = Val.str s ∧ G s) →
    (∀ e ∈ E, (∃ c, lookupV st (.str e) = some c) ∨
       (∃ b j cb, lookupV st (.str b) = some cb ∧ j < cb ∧ G b ∧
         e = b ++ natStr j)) →
    ∃ (out : List Obj) (ns : List String), dedupResources st rs = .ok out ∧
      out.map (fun r => oget r "name") = ns.map (fun s => some (Val.str s)) ∧
      ns.Nodup ∧ (∀ s ∈ ns, s ∉ E) := by
  intro rs
  induction rs with
  | nil =>
    intro st E _ _ _
    exact ⟨[], [], rfl, rfl, List.nodup_nil, by simp⟩
  | cons r rest ih =>
    intro st E hname hst hE
    obtain ⟨s, hs, hGs⟩ := hname r (List.mem_cons_self _ _)
    have hnamerest : ∀ r' ∈ rest, ∃ s', oget r' "name" = some (.str s') ∧ G s' :=
      fun r' hr' => hname r' (List.mem_cons_of_mem _ hr')
    cases hlook : lookupV st (Val.str s) with
    | some c =>
      -- repeat occurrence: renamed to `s ++ str c`, counter bumped
      have hfresh : (s ++ natStr c) ∉ E := by
        intro hmem
        rcases hE _ hmem with ⟨c₂, hc₂⟩ | ⟨b, j, cb, hcb, hj, hGb, heq⟩
        · obtain ⟨p, hp, hbp⟩ := lookupV_mem hc₂
          obtain ⟨s', hps', hGs'⟩ := hst p hp
          rw [hps'] at hbp
          have hss : s' = s ++ natStr c := beq_str_iff.mp hbp
          exact hG s s' hGs hGs' (natStr c) (isDigitStr_natStr c) hss
        · by_cases hsb : s = b
          · subst hsb
            rw [hlook] at hcb
            have hcbc : cb = c := by injection hcb.symm
            have : natStr c = natStr j := str_append_right_inj heq
            have := natStr_inj this
            omega
          · obtain ⟨t, ht, hor⟩ := append_digit_overlap heq
              (isDigitStr_natStr c) (isDigitStr_natStr j) hsb
            rcases hor with h1 | h1
            · exact hG s b hGs hGb t ht h1
            · exact hG b s hGb hGs t ht h1
      have hst' : ∀ p ∈ bumpV st (Val.str s), ∃ s', p.1 = Val.str s' ∧ G s' := by
        intro p hp
        obtain ⟨c₀, hc₀⟩ := bumpV_keys hp
        obtain ⟨s', hs', hGs'⟩ := hst (p.1, c₀) hc₀
        exact ⟨s', hs', hGs'⟩
      have hE' : ∀ e ∈ E ++ [s ++ natStr c],
          (∃ c₂, lookupV (bumpV st (Val.str s)) (.str e) = some c₂) ∨
          (∃ b j cb, lookupV (bumpV st (Val.str s)) (.str b) = some cb ∧
            j < cb ∧ G b ∧ e = b ++ natStr j) := by
        intro e he
        rcases List.mem_append.mp he with he | he
        · rcases hE e he with ⟨c₂, hc₂⟩ | ⟨b, j, cb, hcb, hj, hGb, heq⟩
          · obtain ⟨c₃, hc₃, _⟩ := lookupV_bump_mono hc₂
            exact Or.inl ⟨c₃, hc₃⟩
          · obtain ⟨cb', hcb', hle⟩ := lookupV_bump_mono hcb
            exact Or.inr ⟨b, j, cb', hcb', by omega, hGb, heq⟩
        · rw [List.mem_singleton.mp he]
          exact Or.inr ⟨s, c, c + 1, lookupV_bump_self hlook, by omega, hGs, rfl⟩
      obtain ⟨out', ns', hdd, hmap, hnd, hfr⟩ :=
        ih (bumpV st (Val.str s)) (E ++ [s ++ natStr c]) hnamerest hst' hE'
      refine ⟨dset r "name" (.str (s ++ natStr c)) :: out', (s ++ natStr c) :: ns',
        ?_, ?_, ?_, ?_⟩
      · simp only [dedupResources, getItem, hs, hlook, hdd]
      · simp [oget_dset_self, hmap]
      · refine List.nodup_cons.mpr ⟨?_, hnd⟩
        intro hmem
        exact hfr _ hmem (List.mem_append_right _ (List.mem_singleton.mpr rfl))
      · intro x hx
        rcases List.mem_cons.mp hx with rfl | hx
        · exact hfresh
        · intro hxe
          exact hfr x hx (List.mem_append_left _ hxe)
    | none =>
      -- first occurrence: kept, counter 0 registered
      have hfresh : s ∉ E := by
        intro hmem
        rcases hE _ hmem with ⟨c₂, hc₂⟩ | ⟨b, j, cb, hcb, hj, hGb, heq⟩
        · rw [hlook] at hc₂
          simp at hc₂
        · exact hG b s hGb hGs (natStr j) (isDigitStr_natStr j) heq
      have hst' : ∀ p ∈ st ++ [(Val.str s, 0)], ∃ s', p.1 = Val.str s' ∧ G s' := by
        intro p hp
        rcases List.mem_append.mp hp with hp | hp
        · exact hst p hp
        · rw [List.mem_singleton.mp hp]
          exact ⟨s, rfl, hGs⟩
      have hE' : ∀ e ∈ E ++ [s],
          (∃ c₂, lookupV (st ++ [(Val.str s, 0)]) (.str e) = some c₂) ∨
          (∃ b j cb, lookupV (st ++ [(Val.str s, 0)]) (.str b) = some cb ∧
            j < cb ∧ G b ∧ e = b ++ natStr j) := by
        intro e he
        rcases List.mem_append.mp he with he | he
        · rcases hE e he with ⟨c₂, hc₂⟩ | ⟨b, j, cb, hcb, hj, hGb, heq⟩
          · exact Or.inl ⟨c₂, lookupV_append_some hc₂ _⟩
          · exact Or.inr ⟨b, j, cb, lookupV_append_some hcb _, hj, hGb, heq⟩
        · rw [List.mem_singleton.mp he]
          exact Or.inl ⟨0, lookupV_append_self_str hlook⟩
      obtain ⟨out', ns', hdd, hmap, hnd, hfr⟩ :=
        ih (st ++ [(Val.str s, 0)]) (E ++ [s]) hnamerest hst' hE'
      refine ⟨r :: out', s :: ns', ?_, ?_, ?_, ?_⟩
      · simp only [dedupResources, getItem, hs, hlook, hdd]
      · simp [hs, hmap]
      · refine List.nodup_cons.mpr ⟨?_, hnd⟩
        intro hmem
        exact hfr _ hmem (List.mem_append_right _ (List.mem_singleton.mpr rfl))
      · intro x hx
        rcases List.mem_cons.mp hx with rfl | hx
        · exact hfresh
        · intro hxe
          exact hfr x hx (List.mem_append_left _ hxe)

theorem mapExcept_ok_forall {α β : Type} {f : α → Except PyErr β} :
    ∀ {l : List α} {bs : List β}, mapExcept f l = .ok bs →
      ∀ a ∈ l, ∃ b, f a = .ok b := by
  intro l
  induction l with
  | nil =>
    intro bs _ a ha
    simp at ha
  | cons x xs ih =>
    intro bs h a ha
    unfold mapExcept at h
    split at h
    · exact absurd h (by simp)
    · rename_i b hx
      split at h
      · exact absurd h (by simp)
      · rename_i bs2 hxs
        rcases List.mem_cons.mp ha with rfl | ha2
        · exact ⟨b, hx⟩
        · exact ih hxs a ha2

theorem oget_schemaStep_ne (jl : String → Option Val) (o r : Obj) {q : String}
    (h : q ≠ "schema") :
    oget (convert_to_datapackage_resource.schemaStep jl o r) q = oget r q := by
  unfold convert_to_datapackage_resource.schemaStep
  split
  · exact oget_dset_ne _ _ h
  · exact oget_dset_ne _ _ h
  · rfl

theorem oget_schemaStep_str (jl : String → Option Val) (o r : Obj) {s : String}
    (h : oget o "schema" = some (.str s)) :
    oget (convert_to_datapackage_resource.schemaStep jl o r) "schema" =
      some ((jl s).getD (.str s)) := by
  unfold convert_to_datapackage_resource.schemaStep
  rw [h]
  exact oget_dset_self _ _ _

theorem oget_schemaStep_dict (jl : String → Option Val) (o r : Obj)
    {m : List (String × Val)} (h : oget o "schema" = some (.dict m)) :
    oget (convert_to_datapackage_resource.schemaStep jl o r) "schema" =
      some (.dict m) := by
  unfold convert_to_datapackage_resource.schemaStep
  rw [h]
  exact oget_dset_self _ _ _

theorem oget_tailFields_ne (d r : Obj) {q : String}
    (h1 : q ≠ "description") (h2 : q ≠ "format") (h3 : q ≠ "hash")
    (h4 : q ≠ "schema") :
    oget (datapackage_resource_to_ckan_resource.tailFields d r) q = oget r q := by
  unfold datapackage_resource_to_ckan_resource.tailFields
  rw [oget_copyIf_ne _ _ _ _ h4, oget_copyIf_ne _ _ _ _ h3,
    oget_copyIf_ne _ _ _ _ h2, oget_copyIf_ne _ _ _ _ h1]

theorem oget_some_ne_nil {o : Obj} {k : String} {v : Val}
    (h : oget o k = some v) : o ≠ [] := by
  intro he
  subst he
  simp [oget] at h

theorem oget_mem {o : Obj} {k : String} {v : Val} (h : oget o k = some v) :
    (k, v) ∈ o := by
  induction o with
  | nil => simp [oget] at h
  | cons p rest ih =>
    obtain ⟨k2, v2⟩ := p
    by_cases hk : k2 = k
    · subst hk
      simp [oget] at h
      subst h
      exact List.mem_cons_self _ _
    · simp [oget, hk] at h
      exact List.mem_cons_of_mem _ (ih h)

theorem str_data_ne_nil {s : String} (h : s ≠ "") : s.data ≠ [] :=
  fun hd => h (String.ext hd)

theorem truthy_str {s : String} (h : s ≠ "") : truthy (.str s) = true := by
  simp [truthy, h]

theorem truthy_dict {L : Obj} (h : L ≠ []) : truthy (.dict L) = true := by
  simp [truthy, h]

theorem truthy_list {l : List Val} (h : l ≠ []) : truthy (.list l) = true := by
  simp [truthy, h]

theorem getItem_ok {o : Obj} {k : String} {v : Val}
    (h : getItem o k = .ok v) : oget o k = some v := by
  unfold getItem at h
  split at h
  · rename_i v2 hv
    injection h with h2
    rw [hv, h2]
  · exact absurd h (by simp)

theorem ne_self_append_digit {s t : String} (ht : isDigitStr t) :
    s ≠ s ++ t := by
  intro h
  have hd := congrArg String.data h
  rw [str_data_append] at hd
  have hnil : t.data = [] := by
    have h2 := hd.symm
    rwa [List.append_right_eq_self] at h2
  exact ht.1 hnil

/-! ## Key-tracking lemmas for the parser pipelines -/

theorem mem_dset {kv : String × Val} : ∀ {o : Obj} {k : String} {v : Val},
    kv ∈ dset o k v → kv.1 = k ∨ kv ∈ o := by
  intro o
  induction o with
  | nil =>
    intro k v h
    simp [dset] at h
    subst h
    exact Or.inl rfl
  | cons p rest ih =>
    intro k v h
    obtain ⟨k2, v2⟩ := p
    by_cases hk : k2 = k
    · subst hk
      simp only [dset, if_pos rfl] at h
      rcases List.mem_cons.mp h with rfl | h2
      · exact Or.inl rfl
      · exact Or.inr (List.mem_cons_of_mem _ h2)
    · simp only [dset, if_neg hk] at h
      rcases List.mem_cons.mp h with rfl | h2
      · exact Or.inr (List.mem_cons_self _ _)
      · rcases ih h2 with h3 | h3
        · exact Or.inl h3
        · exact Or.inr (List.mem_cons_of_mem _ h3)

theorem mem_dupdate {kv : String × Val} : ∀ {p o : Obj},
    kv ∈ dupdate o p → kv ∈ o ∨ ∃ q ∈ p, kv.1 = q.1 := by
  intro p
  induction p with
  | nil =>
    intro o h
    exact Or.inl h
  | cons q rest ih =>
    intro o h
    obtain ⟨k, v⟩ := q
    rcases ih h with h2 | ⟨q2, hq2, hkq⟩
    · rcases mem_dset h2 with h3 | h3
      · exact Or.inr ⟨(k, v), List.mem_cons_self _ _, h3⟩
      · exact Or.inl h3
    · exact Or.inr ⟨q2, List.mem_cons_of_mem _ hq2, hkq⟩

theorem mem_copyIf {kv : String × Val} {d : Obj} {src : String} {dst : Obj}
    {dk : String} (h : kv ∈ copyIf d src dst dk) : kv.1 = dk ∨ kv ∈ dst := by
  unfold copyIf at h
  split at h
  · split at h
    · exact mem_dset h
    · exact Or.inr h
  · exact Or.inr h

theorem mem_copyIf_nil {kv : String × Val} {d : Obj} {src : String}
    {dk : String} (h : kv ∈ copyIf d src [] dk) : kv.1 = dk := by
  rcases mem_copyIf h with h2 | h2
  · exact h2
  · exact absurd h2 (by simp)

theorem mem_if_dset {kv : String × Val} {c : Prop} [Decidable c] {o : Obj}
    {k : String} {v : Val} (h : kv ∈ (if c then dset o k v else o)) :
    kv.1 = k ∨ kv ∈ o := by
  split at h
  · exact mem_dset h
  · exact Or.inr h

/-- `d.update(copyIf src [] dk)` read back at `dk`: the conditional-copy
update in one step. -/
theorem oget_dupdate_copyIf_nil (d : Obj) (src : String) (dst : Obj)
    (dk : String) :
    oget (dupdate dst (copyIf d src [] dk)) dk =
      if otruthy d src then oget d src else oget dst dk := by
  unfold copyIf otruthy
  cases h : oget d src with
  | none => simp [dupdate]
  | some v =>
    by_cases hv : truthy v
    · simp [hv, dupdate, dset, oget_dset_self]
    · simp [hv, dupdate]

theorem oget_dupdate_copyIf_nil_ne (d : Obj) (src : String) (dst : Obj)
    (dk : String) {q : String} (h : q ≠ dk) :
    oget (dupdate dst (copyIf d src [] dk)) q = oget dst q := by
  apply oget_dupdate_ne
  intro kv hkv
  rw [mem_copyIf_nil hkv]
  exact fun hh => h hh.symm

/-! ### Key sets of the dataset-side parsers -/

theorem keys_rename_dict_key {kv : String × Val} {ok dk : String} {d : Obj}
    (h : kv ∈ rename_dict_key ok dk d) : kv.1 = dk :=
  mem_copyIf_nil h

theorem keys_parse_ckan_url {kv : String × Val} {d : Obj}
    (h : kv ∈ parse_ckan_url d) : kv.1 = "homepage" :=
  mem_copyIf_nil h

theorem keys_parse_notes {kv : String × Val} {d : Obj}
    (h : kv ∈ parse_notes d) : kv.1 = "description" :=
  mem_copyIf_nil h

theorem keys_parse_license {kv : String × Val} {d : Obj}
    (h : kv ∈ parse_license d) : kv.1 = "license" := by
  simp only [parse_license] at h
  split at h
  · simp at h
  · rw [List.mem_singleton.mp h]

theorem keys_parse_author_and_source {kv : String × Val} {d : Obj}
    (h : kv ∈ parse_author_and_source d) : kv.1 = "sources" := by
  simp only [parse_author_and_source] at h
  split at h
  · simp at h
  · rw [List.mem_singleton.mp h]

theorem keys_parse_maintainer {kv : String × Val} {d : Obj}
    (h : kv ∈ parse_maintainer d) : kv.1 = "author" := by
  simp only [parse_maintainer] at h
  split at h
  · simp at h
  · rw [List.mem_singleton.mp h]

theorem keys_parse_tags {kv : String × Val} {d : Obj} {t : Obj}
    (ht : parse_tags d = .ok t) (h : kv ∈ t) : kv.1 = "keywords" := by
  unfold parse_tags at ht
  split at ht
  · split at ht
    · exact absurd ht (by simp)
    · split at ht
      · injection ht with ht2
        subst ht2
        simp at h
      · injection ht with ht2
        subst ht2
        rw [List.mem_singleton.mp h]
  · exact absurd ht (by simp)

theorem keys_parse_extras {kv : String × Val} {jl : String → Option Val}
    {d : Obj} {x : Obj} (hx : parse_extras jl d = .ok x) (h : kv ∈ x) :
    kv.1 = "extras" := by
  unfold parse_extras at hx
  split at hx
  · split at hx
    · exact absurd hx (by simp)
    · split at hx
      · injection hx with hx2
        subst hx2
        simp at h
      · split at hx
        · exact absurd hx (by simp)
        · injection hx with hx2
          subst hx2
          rw [List.mem_singleton.mp h]
  · exact absurd hx (by simp)

/-! ### Key sets of the package-side parsers -/

theorem keys_datapackage_parse_license {kv : String × Val} {o : Obj} {x : Obj}
    (hx : datapackage_parse_license o = .ok x) (h : kv ∈ x) :
    kv.1 = "license_id" ∨ kv.1 = "license_title" ∨ kv.1 = "license_url" := by
  simp only [datapackage_parse_license] at hx
  split at hx
  · split at hx
    · split at hx
      · split at hx
        · split at hx
          · injection hx with hx2
            subst hx2
            rcases mem_dset h with h1 | h1
            · exact Or.inr (Or.inr h1)
            · rcases mem_dset h1 with h2 | h2
              · exact Or.inr (Or.inl h2)
              · rcases mem_if_dset h2 with h3 | h3
                · exact Or.inl h3
                · simp at h3
          · exact absurd hx (by simp)
        · injection hx with hx2
          subst hx2
          rcases mem_if_dset h with h3 | h3
          · exact Or.inl h3
          · simp at h3
      · injection hx with hx2
        subst hx2
        exact Or.inl (by rw [List.mem_singleton.mp h])
      · injection hx with hx2
        subst hx2
        simp at h
    · injection hx with hx2
      subst hx2
      simp at h
  · injection hx with hx2
    subst hx2
    simp at h

theorem keys_datapackage_parse_sources {kv : String × Val} {o : Obj} {x : Obj}
    (hx : datapackage_parse_sources o = .ok x) (h : kv ∈ x) :
    kv.1 = "author" ∨ kv.1 = "author_email" ∨ kv.1 = "url" := by
  unfold datapackage_parse_sources at hx
  split at hx
  · split at hx
    · split at hx
      · split at hx
        · injection hx with hx2
          subst hx2
          rcases mem_copyIf h with h2 | h2
          · exact Or.inr (Or.inr h2)
          · rcases mem_copyIf h2 with h3 | h3
            · exact Or.inr (Or.inl h3)
            · exact Or.inl (mem_copyIf_nil h3)
        · exact absurd hx (by simp)
      · injection hx with hx2
        subst hx2
        simp at h
      · exact absurd hx (by simp)
    · injection hx with hx2
      subst hx2
      simp at h
  · injection hx with hx2
    subst hx2
    simp at h

theorem keys_datapackage_parse_author {kv : String × Val} {o : Obj} {x : Obj}
    (hx : datapackage_parse_author o = .ok x) (h : kv ∈ x) :
    kv.1 = "maintainer" ∨ kv.1 = "maintainer_email" := by
  have hemail : ∀ (a : Obj) (r : Obj),
      kv ∈ datapackage_parse_author.emailField a r →
      kv.1 = "maintainer_email" ∨ kv ∈ r := by
    intro a r hm
    unfold datapackage_parse_author.emailField at hm
    split at hm
    · split at hm
      · exact mem_dset hm
      · exact Or.inr hm
    · exact Or.inr hm
  simp only [datapackage_parse_author] at hx
  split at hx
  · split at hx
    · split at hx
      · -- dict author
        split at hx
        · split at hx
          · split at hx
            · injection hx with hx2
              subst hx2
              rcases hemail _ _ h with h2 | h2
              · exact Or.inr h2
              · exact Or.inl (by rw [List.mem_singleton.mp h2])
            · exact absurd hx (by simp)
          · injection hx with hx2
            subst hx2
            rcases hemail _ _ h with h2 | h2
            · exact Or.inr h2
            · simp at h2
        · injection hx with hx2
          subst hx2
          rcases hemail _ _ h with h2 | h2
          · exact Or.inr h2
          · simp at h2
      · -- string author
        split at hx
        · exact absurd hx (by simp)
        · split at hx
          · injection hx with hx2
            subst hx2
            rcases mem_dset h with h2 | h2
            · exact Or.inr h2
            · split at h2
              · exact Or.inl (by rw [List.mem_singleton.mp h2])
              · simp at h2
          · injection hx with hx2
            subst hx2
            split at h
            · exact Or.inl (by rw [List.mem_singleton.mp h])
            · simp at h
      · injection hx with hx2
        subst hx2
        simp at h
    · injection hx with hx2
      subst hx2
      simp at h
  · injection hx with hx2
    subst hx2
    simp at h

theorem keys_datapackage_parse_keywords {kv : String × Val}
    {slug : String → String} {o : Obj} {x : Obj}
    (hx : datapackage_parse_keywords slug o = .ok x) (h : kv ∈ x) :
    kv.1 = "tags" := by
  unfold datapackage_parse_keywords at hx
  split at hx
  · split at hx
    · split at hx
      · split at hx
        · exact absurd hx (by simp)
        · injection hx with hx2
          subst hx2
          rw [List.mem_singleton.mp h]
      · exact absurd hx (by simp)
    · injection hx with hx2
      subst hx2
      simp at h
  · injection hx with hx2
    subst hx2
    simp at h

theorem keys_datapackage_parse_unknown_fields {kv : String × Val}
    {jd : Val → String} {o : Obj}
    (h : kv ∈ datapackage_parse_unknown_fields_as_extras jd o) :
    kv.1 = "extras" := by
  simp only [datapackage_parse_unknown_fields_as_extras] at h
  split at h
  · simp at h
  · rw [List.mem_singleton.mp h]


theorem mapExcept_map_ok {α β γ : Type} (f : β → Except PyErr γ) (g : α → β)
    (res : α → γ) (l : List α) (h : ∀ a, f (g a) = .ok (res a)) :
    mapExcept f (l.map g) = .ok (l.map res) := by
  induction l with
  | nil => rfl
  | cons a as ih => simp [mapExcept, h a, ih]

theorem parse_tags_computed (d : Obj) (ts : List String)
    (h : oget d "tags" =
      some (.list (ts.map (fun t => Val.dict [("name", Val.str t)]))))
    (hne : ts ≠ []) :
    parse_tags d = .ok [("keywords", .list (ts.map Val.str))] := by
  unfold parse_tags
  rw [h]
  simp only [Option.getD_some]
  rw [mapExcept_map_ok
    (fun t => match t with
      | Val.dict tag => getItem tag "name"
      | _ => Except.error PyErr.typeError)
    (fun t => Val.dict [("name", Val.str t)])
    Val.str ts (fun a => rfl)]
  simp [hne]

theorem parse_extras_computed (jl : String → Option Val) (d : Obj)
    (es : List (String × Val))
    (h : oget d "extras" = some (.list (es.map (fun kv =>
      Val.dict [("key", Val.str kv.1), ("value", kv.2)]))))
    (hne : es ≠ []) :
    parse_extras jl d = .ok [("extras", .dict (dupdate []
      (es.map (fun kv => (kv.1, match kv.2 with
        | Val.str s => (jl s).getD (.str s)
        | v => v)))))] := by
  unfold parse_extras
  rw [h]
  simp only [Option.getD_some]
  rw [mapExcept_map_ok
    (fun e => match e with
      | Val.dict extra =>
        match getItem extra "key", getItem extra "value" with
        | .ok k, .ok v =>
          .ok (k, match v with
                  | Val.str s => (jl s).getD (.str s)
                  | v => v)
        | .error e, _ => .error e
        | _, .error e => .error e
      | _ => .error PyErr.typeError)
    (fun kv : String × Val => Val.dict [("key", Val.str kv.1), ("value", kv.2)])
    (fun kv : String × Val => ((Val.str kv.1, match kv.2 with
      | Val.str s => (jl s).getD (.str s)
      | v => v) : Val × Val))
    es (fun a => rfl)]
  have hie : (es.map (fun kv : String × Val => ((Val.str kv.1, match kv.2 with
      | Val.str s => (jl s).getD (.str s)
      | v => v) : Val × Val))).isEmpty = false := by
    simp [List.isEmpty_eq_false, hne]
  simp only [hie, Bool.false_eq_true, if_false]
  rw [mapExcept_map_ok
    (fun p : Val × Val => match p.1 with
      | Val.str k => Except.ok (k, p.2)
      | _ => Except.error PyErr.typeError)
    (fun kv : String × Val => ((Val.str kv.1, match kv.2 with
      | Val.str s => (jl s).getD (.str s)
      | v => v) : Val × Val))
    (fun kv : String × Val => ((kv.1, match kv.2 with
      | Val.str s => (jl s).getD (.str s)
      | v => v) : String × Val))
    es (fun a => rfl)]

theorem dp_keywords_computed (slug : String → String) (o : Obj)
    (ts : List String)
    (h : oget o "keywords" = some (.list (ts.map Val.str))) (hne : ts ≠ []) :
    datapackage_parse_keywords slug o =
      .ok [("tags", .list (ts.map (fun t =>
        Val.dict [("name", Val.str (slug t))])))] := by
  unfold datapackage_parse_keywords
  rw [h]
  have ht : truthy (.list (ts.map Val.str)) = true := truthy_list (by simp [hne])
  simp only [ht, if_true]
  rw [mapExcept_map_ok
    (fun k => match k with
      | Val.str s => Except.ok (Val.dict [("name", Val.str (slug s))])
      | _ => Except.error PyErr.typeError)
    Val.str
    (fun t => Val.dict [("name", Val.str (slug t))]) ts (fun a => rfl)]



theorem oget_dupdate_stage_ne {o p : Obj} {q K : String}
    (hK : ∀ kv ∈ p, kv.1 = K) (hq : ¬ q = K) :
    oget (dupdate o p) q = oget o q :=
  oget_dupdate_ne o p (fun kv hkv => by rw [hK kv hkv]; exact fun hh => hq hh.symm)

theorem runDatasetParsers_facts (jl : String → Option Val) (d : Obj)
    (dp0 dp : Obj) (h : runDatasetParsers jl d dp0 = .ok dp) :
    (∀ q : String, ¬ q ∈ (["title", "version", "homepage", "description",
        "license", "sources", "author", "keywords", "extras"] : List String) →
      oget dp q = oget dp0 q) ∧
    (oget dp "title" =
      if otruthy d "title" then oget d "title" else oget dp0 "title") ∧
    (oget dp "version" =
      if otruthy d "version" then oget d "version" else oget dp0 "version") ∧
    (oget dp "description" =
      if otruthy d "notes" then oget d "notes" else oget dp0 "description") ∧
    (∀ t, parse_tags d = .ok t → ∀ kw, t = [("keywords", kw)] →
      oget dp "keywords" = some kw) ∧
    (∀ x, parse_extras jl d = .ok x → ∀ ex, x = [("extras", ex)] →
      oget dp "extras" = some ex) ∧
    (∀ kv ∈ dp, kv ∈ dp0 ∨ kv.1 ∈ (["title", "version", "homepage",
        "description", "license", "sources", "author", "keywords",
        "extras"] : List String)) := by
  unfold runDatasetParsers at h
  split at h
  · exact absurd h (by simp)
  · rename_i t ht
    split at h
    · exact absurd h (by simp)
    · rename_i x hx
      injection h with h2
      subst h2
      refine ⟨?_, ?_, ?_, ?_, ?_, ?_, ?_⟩
      · intro q hq
        simp only [List.mem_cons, List.mem_singleton, not_or] at hq
        obtain ⟨q1, q2, q3, q4, q5, q6, q7, q8, q9, -⟩ := hq
        rw [oget_dupdate_stage_ne (fun kv hkv => keys_parse_extras hx hkv) q9,
            oget_dupdate_stage_ne (fun kv hkv => keys_parse_tags ht hkv) q8,
            oget_dupdate_stage_ne (fun kv hkv => keys_parse_maintainer hkv) q7,
            oget_dupdate_stage_ne (fun kv hkv => keys_parse_author_and_source hkv) q6,
            oget_dupdate_stage_ne (fun kv hkv => keys_parse_license hkv) q5,
            oget_dupdate_stage_ne (fun kv hkv => keys_parse_notes hkv) q4,
            oget_dupdate_stage_ne (fun kv hkv => keys_parse_ckan_url hkv) q3,
            oget_dupdate_stage_ne (fun kv hkv => keys_rename_dict_key hkv) q2,
            oget_dupdate_stage_ne (fun kv hkv => keys_rename_dict_key hkv) q1]
      · rw [oget_dupdate_stage_ne (fun kv hkv => keys_parse_extras hx hkv) (by decide),
            oget_dupdate_stage_ne (fun kv hkv => keys_parse_tags ht hkv) (by decide),
            oget_dupdate_stage_ne (fun kv hkv => keys_parse_maintainer hkv) (by decide),
            oget_dupdate_stage_ne (fun kv hkv => keys_parse_author_and_source hkv) (by decide),
            oget_dupdate_stage_ne (fun kv hkv => keys_parse_license hkv) (by decide),
            oget_dupdate_stage_ne (fun kv hkv => keys_parse_notes hkv) (by decide),
            oget_dupdate_stage_ne (fun kv hkv => keys_parse_ckan_url hkv) (by decide),
            oget_dupdate_stage_ne (fun kv hkv => keys_rename_dict_key hkv) (by decide)]
        exact oget_dupdate_copyIf_nil d "title" dp0 "title"
      · rw [oget_dupdate_stage_ne (fun kv hkv => keys_parse_extras hx hkv) (by decide),
            oget_dupdate_stage_ne (fun kv hkv => keys_parse_tags ht hkv) (by decide),
            oget_dupdate_stage_ne (fun kv hkv => keys_parse_maintainer hkv) (by decide),
            oget_dupdate_stage_ne (fun kv hkv => keys_parse_author_and_source hkv) (by decide),
            oget_dupdate_stage_ne (fun kv hkv => keys_parse_license hkv) (by decide),
            oget_dupdate_stage_ne (fun kv hkv => keys_parse_notes hkv) (by decide),
            oget_dupdate_stage_ne (fun kv hkv => keys_parse_ckan_url hkv) (by decide)]
        rw [show (oget (dupdate
            (dupdate dp0 (rename_dict_key "title" "title" d))
            (rename_dict_key "version" "version" d)) "version") =
          if otruthy d "version" then oget d "version"
          else oget (dupdate dp0 (rename_dict_key "title" "title" d)) "version"
          from oget_dupdate_copyIf_nil d "version" _ "version"]
        rw [oget_dupdate_stage_ne (fun kv hkv => keys_rename_dict_key hkv)
          (by decide)]
      · rw [oget_dupdate_stage_ne (fun kv hkv => keys_parse_extras hx hkv) (by decide),
            oget_dupdate_stage_ne (fun kv hkv => keys_parse_tags ht hkv) (by decide),
            oget_dupdate_stage_ne (fun kv hkv => keys_parse_maintainer hkv) (by decide),
            oget_dupdate_stage_ne (fun kv hkv => keys_parse_author_and_source hkv) (by decide),
            oget_dupdate_stage_ne (fun kv hkv => keys_parse_license hkv) (by decide)]
        rw [show (oget (dupdate (dupdate (dupdate
            (dupdate dp0 (rename_dict_key "title" "title" d))
            (rename_dict_key "version" "version" d))
            (parse_ckan_url d)) (parse_notes d)) "description") =
          if otruthy d "notes" then oget d "notes"
          else oget (dupdate (dupdate
            (dupdate dp0 (rename_dict_key "title" "title" d))
            (rename_dict_key "version" "version" d))
            (parse_ckan_url d)) "description"
          from oget_dupdate_copyIf_nil d "notes" _ "description"]
        rw [oget_dupdate_stage_ne (fun kv hkv => keys_parse_ckan_url hkv) (by decide),
            oget_dupdate_stage_ne (fun kv hkv => keys_rename_dict_key hkv) (by decide),
            oget_dupdate_stage_ne (fun kv hkv => keys_rename_dict_key hkv) (by decide)]
      · intro t2 ht2 kw hkw
        rw [ht] at ht2
        injection ht2 with ht3
        subst ht3
        subst hkw
        rw [oget_dupdate_stage_ne (fun kv hkv => keys_parse_extras hx hkv) (by decide)]
        rw [dupdate_single]
        exact oget_dset_self _ _ _
      · intro x2 hx2 ex hex
        rw [hx] at hx2
        injection hx2 with hx3
        subst hx3
        subst hex
        rw [dupdate_single]
        exact oget_dset_self _ _ _
      · intro kv hkv
        rcases mem_dupdate hkv with hkv | ⟨q2, hq2, hkq⟩
        · rcases mem_dupdate hkv with hkv | ⟨q2, hq2, hkq⟩
          · rcases mem_dupdate hkv with hkv | ⟨q2, hq2, hkq⟩
            · rcases mem_dupdate hkv with hkv | ⟨q2, hq2, hkq⟩
              · rcases mem_dupdate hkv with hkv | ⟨q2, hq2, hkq⟩
                · rcases mem_dupdate hkv with hkv | ⟨q2, hq2, hkq⟩
                  · rcases mem_dupdate hkv with hkv | ⟨q2, hq2, hkq⟩
                    · rcases mem_dupdate hkv with hkv | ⟨q2, hq2, hkq⟩
                      · rcases mem_dupdate hkv with hkv | ⟨q2, hq2, hkq⟩
                        · exact Or.inl hkv
                        · exact Or.inr (by rw [hkq, keys_rename_dict_key hq2]; simp)
                      · exact Or.inr (by rw [hkq, keys_rename_dict_key hq2]; simp)
                    · exact Or.inr (by rw [hkq, keys_parse_ckan_url hq2]; simp)
                  · exact Or.inr (by rw [hkq, keys_parse_notes hq2]; simp)
                · exact Or.inr (by rw [hkq, keys_parse_license hq2]; simp)
              · exact Or.inr (by rw [hkq, keys_parse_author_and_source hq2]; simp)
            · exact Or.inr (by rw [hkq, keys_parse_maintainer hq2]; simp)
          · exact Or.inr (by rw [hkq, keys_parse_tags ht hq2]; simp)
        · exact Or.inr (by rw [hkq, keys_parse_extras hx hq2]; simp)


theorem runPackageParsers_facts (slug : String → String) (jd : Val → String)
    (desc : Obj) (dd0 dd : Obj)
    (h : runPackageParsers slug jd desc dd0 = .ok dd) :
    (∀ q : String, ¬ q ∈ (["title", "version", "notes", "license_id",
        "license_title", "license_url", "author", "author_email", "url",
        "maintainer", "maintainer_email", "tags", "extras"] : List String) →
      oget dd q = oget dd0 q) ∧
    (oget dd "title" =
      if otruthy desc "title" then oget desc "title" else oget dd0 "title") ∧
    (oget dd "version" =
      if otruthy desc "version" then oget desc "version"
      else oget dd0 "version") ∧
    (oget dd "notes" =
      if otruthy desc "description" then oget desc "description"
      else oget dd0 "notes") ∧
    (∀ kres, datapackage_parse_keywords slug desc = .ok kres →
      ∀ kw, kres = [("tags", kw)] → oget dd "tags" = some kw) ∧
    (∀ el, datapackage_parse_unknown_fields_as_extras jd desc =
        [("extras", el)] → oget dd "extras" = some el) := by
  unfold runPackageParsers at h
  split at h
  · exact absurd h (by simp)
  · rename_i l hl
    split at h
    · exact absurd h (by simp)
    · rename_i s2 hs2
      split at h
      · exact absurd h (by simp)
      · rename_i a ha
        split at h
        · exact absurd h (by simp)
        · rename_i k hk
          injection h with h2
          subst h2
          have hlic_ne : ∀ q : String, ¬ q = "license_id" →
              ¬ q = "license_title" → ¬ q = "license_url" →
              ∀ kv ∈ l, kv.1 ≠ q := by
            intro q hq1 hq2 hq3 kv hkv
            rcases keys_datapackage_parse_license hl hkv with hh | hh | hh <;>
              rw [hh]
            · exact fun h3 => hq1 h3.symm
            · exact fun h3 => hq2 h3.symm
            · exact fun h3 => hq3 h3.symm
          have hsrc_ne : ∀ q : String, ¬ q = "author" →
              ¬ q = "author_email" → ¬ q = "url" →
              ∀ kv ∈ s2, kv.1 ≠ q := by
            intro q hq1 hq2 hq3 kv hkv
            rcases keys_datapackage_parse_sources hs2 hkv with hh | hh | hh <;>
              rw [hh]
            · exact fun h3 => hq1 h3.symm
            · exact fun h3 => hq2 h3.symm
            · exact fun h3 => hq3 h3.symm
          have hauth_ne : ∀ q : String, ¬ q = "maintainer" →
              ¬ q = "maintainer_email" → ∀ kv ∈ a, kv.1 ≠ q := by
            intro q hq1 hq2 kv hkv
            rcases keys_datapackage_parse_author ha hkv with hh | hh <;> rw [hh]
            · exact fun h3 => hq1 h3.symm
            · exact fun h3 => hq2 h3.symm
          refine ⟨?_, ?_, ?_, ?_, ?_, ?_⟩
          · intro q hq
            simp only [List.mem_cons, List.mem_singleton, not_or] at hq
            obtain ⟨q1, q2, q3, q4, q5, q6, q7, q8, q9, q10, q11, q12, q13, -⟩ := hq
            rw [oget_dupdate_stage_ne
                (fun kv hkv => keys_datapackage_parse_unknown_fields hkv) q13,
              oget_dupdate_stage_ne
                (fun kv hkv => keys_datapackage_parse_keywords hk hkv) q12,
              oget_dupdate_ne _ _ (hauth_ne q q10 q11),
              oget_dupdate_ne _ _ (hsrc_ne q q7 q8 q9),
              oget_dupdate_ne _ _ (hlic_ne q q4 q5 q6),
              oget_dupdate_stage_ne (fun kv hkv => keys_rename_dict_key hkv) q3,
              oget_dupdate_stage_ne (fun kv hkv => keys_rename_dict_key hkv) q2,
              oget_dupdate_stage_ne (fun kv hkv => keys_rename_dict_key hkv) q1]
          · rw [oget_dupdate_stage_ne
                (fun kv hkv => keys_datapackage_parse_unknown_fields hkv) (by decide),
              oget_dupdate_stage_ne
                (fun kv hkv => keys_datapackage_parse_keywords hk hkv) (by decide),
              oget_dupdate_ne _ _ (hauth_ne _ (by decide) (by decide)),
              oget_dupdate_ne _ _ (hsrc_ne _ (by decide) (by decide) (by decide)),
              oget_dupdate_ne _ _ (hlic_ne _ (by decide) (by decide) (by decide)),
              oget_dupdate_stage_ne (fun kv hkv => keys_rename_dict_key hkv) (by decide),
              oget_dupdate_stage_ne (fun kv hkv => keys_rename_dict_key hkv) (by decide)]
            exact oget_dupdate_copyIf_nil desc "title" dd0 "title"
          · rw [oget_dupdate_stage_ne
                (fun kv hkv => keys_datapackage_parse_unknown_fields hkv) (by decide),
              oget_dupdate_stage_ne
                (fun kv hkv => keys_datapackage_parse_keywords hk hkv) (by decide),
              oget_dupdate_ne _ _ (hauth_ne _ (by decide) (by decide)),
              oget_dupdate_ne _ _ (hsrc_ne _ (by decide) (by decide) (by decide)),
              oget_dupdate_ne _ _ (hlic_ne _ (by decide) (by decide) (by decide)),
              oget_dupdate_stage_ne (fun kv hkv => keys_rename_dict_key hkv) (by decide)]
            rw [show (oget (dupdate
                (dupdate dd0 (rename_dict_key "title" "title" desc))
                (rename_dict_key "version" "version" desc)) "version") =
              if otruthy desc "version" then oget desc "version"
              else oget (dupdate dd0 (rename_dict_key "title" "title" desc))
                "version"
              from oget_dupdate_copyIf_nil desc "version" _ "version"]
            rw [oget_dupdate_stage_ne (fun kv hkv => keys_rename_dict_key hkv)
              (by decide)]
          · rw [oget_dupdate_stage_ne
                (fun kv hkv => keys_datapackage_parse_unknown_fields hkv) (by decide),
              oget_dupdate_stage_ne
                (fun kv hkv => keys_datapackage_parse_keywords hk hkv) (by decide),
              oget_dupdate_ne _ _ (hauth_ne _ (by decide) (by decide)),
              oget_dupdate_ne _ _ (hsrc_ne _ (by decide) (by decide) (by decide)),
              oget_dupdate_ne _ _ (hlic_ne _ (by decide) (by decide) (by decide))]
            rw [show (oget (dupdate (dupdate
                (dupdate dd0 (rename_dict_key "title" "title" desc))
                (rename_dict_key "version" "version" desc))
                (rename_dict_key "description" "notes" desc)) "notes") =
              if otruthy desc "description" then oget desc "description"
              else oget (dupdate
                (dupdate dd0 (rename_dict_key "title" "title" desc))
                (rename_dict_key "version" "version" desc)) "notes"
              from oget_dupdate_copyIf_nil desc "description" _ "notes"]
            rw [oget_dupdate_stage_ne (fun kv hkv => keys_rename_dict_key hkv)
                (by decide),
              oget_dupdate_stage_ne (fun kv hkv => keys_rename_dict_key hkv)
                (by decide)]
          · intro kres hkres kw hkw
            rw [hk] at hkres
            injection hkres with hkres2
            subst hkres2
            subst hkw
            rw [oget_dupdate_stage_ne
              (fun kv hkv => keys_datapackage_parse_unknown_fields hkv) (by decide)]
            rw [dupdate_single]
            exact oget_dset_self _ _ _
          · intro el hel
            rw [hel, dupdate_single]
            exact oget_dset_self _ _ _


theorem unknown_fields_extras_shape (jd : Val → String) (desc : Obj) (X : Val)
    (he : oget desc "extras" = some X)
    (hsub : ∀ kv ∈ desc, kv.1 ∈ known_fields ∨ kv.1 = "extras") :
    ∃ el : List Val, datapackage_parse_unknown_fields_as_extras jd desc =
        [("extras", .list el)] ∧ el ≠ [] ∧
      ∀ e ∈ el, ∃ ev, e = Val.dict [("key", Val.str "extras"), ("value", ev)] := by
  have hmem : ("extras", X) ∈ desc := oget_mem he
  have hvf : ("extras", X) ∈ desc.filter (fun p => !known_fields.contains p.1) :=
    List.mem_filter.mpr ⟨hmem,
      (by decide : (!known_fields.contains "extras") = true)⟩
  have hfne : desc.filter (fun p => !known_fields.contains p.1) ≠ [] :=
    List.ne_nil_of_mem hvf
  simp only [datapackage_parse_unknown_fields_as_extras]
  have hie : ((desc.filter (fun p => !known_fields.contains p.1)).map
      (fun p => Val.dict
        [("key", Val.str p.1),
         ("value", match p.2 with
                   | Val.dict m => Val.str (jd (Val.dict m))
                   | Val.list lst => Val.str (jd (Val.list lst))
                   | v => v)])).isEmpty = false := by
    apply List.isEmpty_eq_false.mpr
    intro h0
    rw [List.map_eq_nil_iff] at h0
    exact hfne h0
  simp only [hie, Bool.false_eq_true, if_false]
  refine ⟨_, rfl, fun h0 => hfne (List.map_eq_nil_iff.mp h0), ?_⟩
  intro e hee
  rw [List.mem_map] at hee
  obtain ⟨p, hp, rfl⟩ := hee
  obtain ⟨hpd, hpf⟩ := List.mem_filter.mp hp
  have hk : p.1 = "extras" := by
    rcases hsub p hpd with hk | hk
    · exfalso
      simp only [Bool.not_eq_true'] at hpf
      exact absurd
        ((List.elem_eq_true_of_mem hk :
          known_fields.contains p.1 = true).symm.trans hpf) (by decide)
    · exact hk
  exact ⟨_, by rw [hk]⟩


theorem mapExcept_ok_of_forall {α β : Type} {f : α → Except PyErr β}
    {l : List α} (h : ∀ a ∈ l, ∃ b, f a = .ok b) :
    ∃ bs, mapExcept f l = .ok bs ∧ ∀ b ∈ bs, ∃ a ∈ l, f a = .ok b := by
  induction l with
  | nil => exact ⟨[], rfl, by simp⟩
  | cons a as ih =>
    obtain ⟨b, hb⟩ := h a (List.mem_cons_self _ _)
    obtain ⟨bs, hbs, hprov⟩ := ih (fun a2 ha2 => h a2 (List.mem_cons_of_mem _ ha2))
    refine ⟨b :: bs, ?_, ?_⟩
    · unfold mapExcept
      rw [hb, hbs]
    · intro b2 hb2
      rcases List.mem_cons.mp hb2 with rfl | hb2
      · exact ⟨a, List.mem_cons_self _ _, hb⟩
      · obtain ⟨a2, ha2, hfa2⟩ := hprov b2 hb2
        exact ⟨a2, List.mem_cons_of_mem _ ha2, hfa2⟩

theorem mapExcept_classified {α β : Type} {f : α → Except PyErr β}
    {E : PyErr} {l : List α}
    (h : ∀ a ∈ l, (∃ b, f a = .ok b) ∨ f a = .error E) :
    (∃ bs, mapExcept f l = .ok bs) ∨ mapExcept f l = .error E := by
  induction l with
  | nil => exact Or.inl ⟨[], rfl⟩
  | cons a as ih =>
    rcases h a (List.mem_cons_self _ _) with ⟨b, hb⟩ | hb
    · rcases ih (fun a2 ha2 => h a2 (List.mem_cons_of_mem _ ha2)) with
        ⟨bs, hbs⟩ | hbs
      · exact Or.inl ⟨b :: bs, by unfold mapExcept; rw [hb, hbs]⟩
      · exact Or.inr (by unfold mapExcept; rw [hb, hbs])
    · exact Or.inr (by unfold mapExcept; rw [hb])

theorem parse_tags_ok {d : Obj}
    (h : (match oget d "tags" with
          | some (.list ts) => ts.all wfTag
          | none => true
          | some _ => false) = true) :
    ∃ t, parse_tags d = .ok t := by
  unfold parse_tags
  cases htv : oget d "tags" with
  | none => exact ⟨[], rfl⟩
  | some v =>
    rw [htv] at h
    cases v with
    | list ts =>
      simp only [Option.getD_some]
      have hall : ∀ a ∈ ts, ∃ b, (fun t =>
          match t with
          | Val.dict tag => getItem tag "name"
          | _ => Except.error PyErr.typeError) a = .ok b := by
        intro a ha
        have hw := List.all_eq_true.mp h a ha
        cases a with
        | dict tag =>
          simp only [wfTag] at hw
          obtain ⟨nv, hnv⟩ := Option.isSome_iff_exists.mp hw
          exact ⟨nv, by simp [getItem, hnv]⟩
        | null => simp [wfTag] at hw
        | bool b => simp [wfTag] at hw
        | int n => simp [wfTag] at hw
        | str s => simp [wfTag] at hw
        | list l => simp [wfTag] at hw
      obtain ⟨bs, hbs, _⟩ := mapExcept_ok_of_forall hall
      rw [hbs]
      by_cases hbb : bs.isEmpty = true
      · refine ⟨[], ?_⟩
        have h9 : (if bs.isEmpty = true then (Except.ok [] : Except PyErr Obj)
            else Except.ok [("keywords", Val.list bs)]) = Except.ok [] := by
          rw [if_pos hbb]
        exact h9
      · refine ⟨[("keywords", Val.list bs)], ?_⟩
        have h9 : (if bs.isEmpty = true then (Except.ok [] : Except PyErr Obj)
            else Except.ok [("keywords", Val.list bs)]) =
            Except.ok [("keywords", Val.list bs)] := by
          rw [if_neg hbb]
        exact h9
    | null => simp at h
    | bool b => simp at h
    | int n => simp at h
    | str s => simp at h
    | dict o2 => simp at h

theorem extras_elem_ok (jl : String → Option Val) (extra : Obj) (ks : String)
    (vv : Val) (hk : oget extra "key" = some (Val.str ks))
    (hv : oget extra "value" = some vv) :
    (match getItem extra "key", getItem extra "value" with
     | Except.ok k, Except.ok v =>
       Except.ok (k, match v with
               | Val.str s => (jl s).getD (Val.str s)
               | v => v)
     | Except.error e, _ => Except.error e
     | _, Except.error e => Except.error e) =
    Except.ok ((Val.str ks, decodeExtraVal jl vv) : Val × Val) := by
  have hk1 : getItem extra "key" = Except.ok (Val.str ks) := by
    unfold getItem
    rw [hk]
  have hv1 : getItem extra "value" = Except.ok vv := by
    unfold getItem
    rw [hv]
  rw [hk1, hv1]
  cases vv <;> rfl

theorem parse_extras_ok {jl : String → Option Val} {d : Obj}
    (h : (match oget d "extras" with
          | some (.list es) => es.all wfExtra
          | none => true
          | some _ => false) = true) :
    ∃ x, parse_extras jl d = .ok x := by
  unfold parse_extras
  cases hev : oget d "extras" with
  | none => exact ⟨[], rfl⟩
  | some v =>
    rw [hev] at h
    cases v with
    | list es =>
      simp only [Option.getD_some]
      have hall : ∀ a ∈ es, ∃ b, (fun e =>
          match e with
          | Val.dict extra =>
            match getItem extra "key", getItem extra "value" with
            | Except.ok k, Except.ok v =>
              Except.ok (k, match v with
                      | Val.str s => (jl s).getD (Val.str s)
                      | v => v)
            | Except.error e, _ => Except.error e
            | _, Except.error e => Except.error e
          | _ => Except.error PyErr.typeError) a =
            (Except.ok b : Except PyErr (Val × Val)) ∧
          ∀ b2, b = b2 → ∃ ks vs, b2 = ((Val.str ks, vs) : Val × Val) := by
        intro a ha
        have hw := List.all_eq_true.mp h a ha
        cases a with
        | dict extra =>
          simp only [wfExtra, Bool.and_eq_true] at hw
          obtain ⟨hk, hv⟩ := hw
          obtain ⟨vv, hvv⟩ := Option.isSome_iff_exists.mp hv
          cases hkk : oget extra "key" with
          | none => rw [hkk] at hk; simp at hk
          | some kv =>
            rw [hkk] at hk
            cases kv with
            | str ks =>
              exact ⟨_, extras_elem_ok jl extra ks vv hkk hvv,
                fun b2 hb2 => ⟨ks, _, hb2.symm⟩⟩
            | null => simp at hk
            | bool b => simp at hk
            | int n => simp at hk
            | list l => simp at hk
            | dict o2 => simp at hk
        | null => simp [wfExtra] at hw
        | bool b => simp [wfExtra] at hw
        | int n => simp [wfExtra] at hw
        | str s => simp [wfExtra] at hw
        | list l => simp [wfExtra] at hw
      obtain ⟨pairs, hpairs, hprov⟩ := mapExcept_ok_of_forall
        (fun a ha => ⟨(hall a ha).choose, (hall a ha).choose_spec.1⟩)
      rw [hpairs]
      have hall2 : ∀ p ∈ pairs, ∃ c, (fun p : Val × Val =>
          match p.1 with
          | Val.str k => Except.ok ((k, p.2) : String × Val)
          | _ => Except.error PyErr.typeError) p = .ok c := by
        intro p hp
        obtain ⟨a, ha, hfa⟩ := hprov p hp
        obtain ⟨b, hb, hshape⟩ := hall a ha
        have hpb : (Except.ok p : Except PyErr (Val × Val)) = Except.ok b :=
          hfa.symm.trans hb
        injection hpb with hpb2
        obtain ⟨ks, vs, hkv⟩ := hshape b rfl
        rw [hpb2, hkv]
        exact ⟨(ks, vs), rfl⟩
      obtain ⟨kvs, hkvs, _⟩ := mapExcept_ok_of_forall hall2
      by_cases hpe : pairs.isEmpty = true
      · refine ⟨[], ?_⟩
        have h9 : (if pairs.isEmpty = true then (Except.ok [] : Except PyErr Obj)
            else match mapExcept (fun p : Val × Val =>
                match p.1 with
                | Val.str k => Except.ok ((k, p.2) : String × Val)
                | _ => Except.error PyErr.typeError) pairs with
              | .error e => .error e
              | .ok kvs2 => .ok [("extras", .dict (dupdate [] kvs2))]) =
            Except.ok [] := by
          rw [if_pos hpe]
        exact h9
      · refine ⟨[("extras", .dict (dupdate [] kvs))], ?_⟩
        have h9 : (if pairs.isEmpty = true then (Except.ok [] : Except PyErr Obj)
            else match mapExcept (fun p : Val × Val =>
                match p.1 with
                | Val.str k => Except.ok ((k, p.2) : String × Val)
                | _ => Except.error PyErr.typeError) pairs with
              | .error e => .error e
              | .ok kvs2 => .ok [("extras", .dict (dupdate [] kvs2))]) =
            Except.ok [("extras", .dict (dupdate [] kvs))] := by
          rw [if_neg hpe, hkvs]
        exact h9
    | null => simp at h
    | bool b => simp at h
    | int n => simp at h
    | str s => simp at h
    | dict o2 => simp at h


theorem conv_resource_ok {slug : String → String} {jl : String → Option Val}
    {rv : Val} (h : wfResource rv = true) :
    ∃ r, convert_to_datapackage_resource slug jl rv = .ok r ∧
      ∃ s, oget r "name" = some (.str s) := by
  cases rv with
  | dict o =>
    simp only [wfResource] at h
    simp only [convert_to_datapackage_resource]
    cases hnm : oget o "name" with
    | some nv =>
      rw [hnm] at h
      dsimp only at h ⊢
      by_cases htr : truthy nv = true
      · rw [if_pos htr] at h ⊢
        cases nv with
        | str s =>
          refine ⟨_, rfl, strLower (slug s), ?_⟩
          rw [oget_schemaStep_ne _ _ _ (by decide)]
          rw [oget_dset_ne _ _ (by decide)]
          exact oget_dset_self _ _ _
        | null => simp at h
        | bool b => simp at h
        | int n => simp at h
        | list l => simp at h
        | dict o2 => simp at h
      · rw [if_neg htr] at h ⊢
        cases hid : oget o "id" with
        | some idv =>
          rw [hid] at h
          cases idv with
          | str sid =>
            have hgi : getItem o "id" = .ok (.str sid) := by
              unfold getItem
              rw [hid]
            rw [hgi]
            refine ⟨_, rfl, sid, ?_⟩
            rw [oget_schemaStep_ne _ _ _ (by decide)]
            exact oget_dset_self _ _ _
          | null => simp at h
          | bool b => simp at h
          | int n => simp at h
          | list l => simp at h
          | dict o2 => simp at h
        | none =>
          rw [hid] at h
          simp at h
    | none =>
      rw [hnm] at h
      dsimp only at h ⊢
      cases hid : oget o "id" with
      | some idv =>
        rw [hid] at h
        cases idv with
        | str sid =>
          have hgi : getItem o "id" = .ok (.str sid) := by
            unfold getItem
            rw [hid]
          rw [hgi]
          refine ⟨_, rfl, sid, ?_⟩
          rw [oget_schemaStep_ne _ _ _ (by decide)]
          exact oget_dset_self _ _ _
        | null => simp at h
        | bool b => simp at h
        | int n => simp at h
        | list l => simp at h
        | dict o2 => simp at h
      | none =>
        rw [hid] at h
        simp at h
  | null => simp [wfResource] at h
  | bool b => simp [wfResource] at h
  | int n => simp [wfResource] at h
  | str s => simp [wfResource] at h
  | list l => simp [wfResource] at h

theorem dedup_ok_of_str : ∀ (rs : List Obj) (st : List (Val × Nat)),
    (∀ r ∈ rs, ∃ s, oget r "name" = some (.str s)) →
    ∃ out, dedupResources st rs = .ok out := by
  intro rs
  induction rs with
  | nil => exact fun st _ => ⟨[], rfl⟩
  | cons r rest ih =>
    intro st hs
    obtain ⟨s, hsr⟩ := hs r (List.mem_cons_self _ _)
    have hrest := fun r2 h2 => hs r2 (List.mem_cons_of_mem _ h2)
    unfold dedupResources
    have hgi : getItem r "name" = .ok (.str s) := by
      unfold getItem
      rw [hsr]
    simp only [hgi]
    cases hlk : lookupV st (Val.str s) with
    | some c =>
      obtain ⟨out, hout⟩ := ih (bumpV st (Val.str s)) hrest
      simp only [hlk, hout]
      exact ⟨_, rfl⟩
    | none =>
      obtain ⟨out, hout⟩ := ih (st ++ [(Val.str s, 0)]) hrest
      simp only [hlk, hout]
      exact ⟨_, rfl⟩


theorem matchAuthor_classified (s : String) :
    (∃ p, matchAuthor s = .ok p) ∨ matchAuthor s = .error .attributeError := by
  simp only [matchAuthor]
  by_cases h : (s.data.takeWhile (fun c => c ≠ '<')).isEmpty = true
  · rw [if_pos h]
    exact Or.inr rfl
  · rw [if_neg h]
    exact Or.inl ⟨_, rfl⟩

theorem license_classified (o : Obj) :
    (∃ x, datapackage_parse_license o = .ok x) ∨
    datapackage_parse_license o = .error (.keyError "url") := by
  simp only [datapackage_parse_license]
  cases hl : oget o "license" with
  | none => exact Or.inl ⟨_, rfl⟩
  | some lv =>
    dsimp only
    by_cases htr : truthy lv = true
    · rw [if_pos htr]
      cases lv with
      | dict L =>
        dsimp only
        by_cases ht : otruthy L "title" = true
        · rw [if_pos ht]
          cases hu : oget L "url" with
          | some uv =>
            have hgi : getItem L "url" = .ok uv := by
              unfold getItem
              rw [hu]
            simp only [hgi]
            exact Or.inl ⟨_, rfl⟩
          | none =>
            have hgi : getItem L "url" = .error (.keyError "url") := by
              unfold getItem
              rw [hu]
            simp only [hgi]
            exact Or.inr True.intro
        · rw [if_neg ht]
          exact Or.inl ⟨_, rfl⟩
      | null => exact Or.inl ⟨_, rfl⟩
      | bool b => exact Or.inl ⟨_, rfl⟩
      | int n => exact Or.inl ⟨_, rfl⟩
      | str s => exact Or.inl ⟨_, rfl⟩
      | list l => exact Or.inl ⟨_, rfl⟩
    · rw [if_neg htr]
      exact Or.inl ⟨_, rfl⟩

theorem sources_ok {o : Obj} (h : wfSources (oget o "sources") = true) :
    ∃ x, datapackage_parse_sources o = .ok x := by
  simp only [datapackage_parse_sources]
  cases hs : oget o "sources" with
  | none => exact ⟨_, rfl⟩
  | some sv =>
    rw [hs] at h
    dsimp only
    by_cases htr : truthy sv = true
    · rw [if_pos htr]
      cases sv with
      | list l =>
        cases l with
        | nil => exact ⟨_, rfl⟩
        | cons first rest =>
          cases first with
          | dict src => exact ⟨_, rfl⟩
          | null => simp [wfSources] at h
          | bool b => simp [wfSources] at h
          | int n => simp [wfSources] at h
          | str s => simp [wfSources] at h
          | list l2 => simp [wfSources] at h
      | null => simp [wfSources, htr] at h
      | bool b => simp only [wfSources, htr] at h; exact absurd h (by decide)
      | int n => simp only [wfSources, htr] at h; exact absurd h (by decide)
      | str s => simp only [wfSources, htr] at h; exact absurd h (by decide)
      | dict o2 => simp only [wfSources, htr] at h; exact absurd h (by decide)
    · rw [if_neg htr]
      exact ⟨_, rfl⟩

theorem author_classified (o : Obj) :
    (∃ x, datapackage_parse_author o = .ok x) ∨
    datapackage_parse_author o = .error .attributeError := by
  simp only [datapackage_parse_author]
  cases ha : oget o "author" with
  | none => exact Or.inl ⟨_, rfl⟩
  | some av =>
    dsimp only
    by_cases htr : truthy av = true
    · rw [if_pos htr]
      cases av with
      | dict A =>
        dsimp only
        cases hm : oget A "name" with
        | some mv =>
          dsimp only
          by_cases hmt : truthy mv = true
          · rw [if_pos hmt]
            cases mv with
            | str m => exact Or.inl ⟨_, rfl⟩
            | null => exact Or.inr rfl
            | bool b => exact Or.inr rfl
            | int n => exact Or.inr rfl
            | list l => exact Or.inr rfl
            | dict o2 => exact Or.inr rfl
          · rw [if_neg hmt]
            exact Or.inl ⟨_, rfl⟩
        | none => exact Or.inl ⟨_, rfl⟩
      | str s =>
        dsimp only
        rcases matchAuthor_classified s with ⟨p, hp⟩ | hp
        · simp only [hp]
          obtain ⟨nm, em⟩ := p
          cases em with
          | some e => exact Or.inl ⟨_, rfl⟩
          | none => exact Or.inl ⟨_, rfl⟩
        · simp only [hp]
          exact Or.inr True.intro
      | null => exact Or.inl ⟨_, rfl⟩
      | bool b => exact Or.inl ⟨_, rfl⟩
      | int n => exact Or.inl ⟨_, rfl⟩
      | list l => exact Or.inl ⟨_, rfl⟩
    · rw [if_neg htr]
      exact Or.inl ⟨_, rfl⟩

theorem keywords_ok (slug : String → String) {o : Obj}
    (h : wfKeywords (oget o "keywords") = true) :
    ∃ x, datapackage_parse_keywords slug o = .ok x := by
  simp only [datapackage_parse_keywords]
  cases hk : oget o "keywords" with
  | none => exact ⟨_, rfl⟩
  | some kv =>
    rw [hk] at h
    dsimp only
    by_cases htr : truthy kv = true
    · rw [if_pos htr]
      cases kv with
      | list ks =>
        dsimp only
        have hall : ∀ a ∈ ks, ∃ b, (fun k =>
            match k with
            | Val.str s => Except.ok (Val.dict [("name", Val.str (slug s))])
            | _ => Except.error PyErr.typeError) a = .ok b := by
          intro a ha
          have hw := List.all_eq_true.mp (by simpa [wfKeywords] using h) a ha
          cases a with
          | str s => exact ⟨_, rfl⟩
          | null => simp at hw
          | bool b => simp at hw
          | int n => simp at hw
          | list l => simp at hw
          | dict o2 => simp at hw
        obtain ⟨bs, hbs, _⟩ := mapExcept_ok_of_forall hall
        simp only [hbs]
        exact ⟨_, rfl⟩
      | null => simp [wfKeywords, htr] at h
      | bool b => simp only [wfKeywords, htr] at h; exact absurd h (by decide)
      | int n => simp only [wfKeywords, htr] at h; exact absurd h (by decide)
      | str s => simp only [wfKeywords, htr] at h; exact absurd h (by decide)
      | dict o2 => simp only [wfKeywords, htr] at h; exact absurd h (by decide)
    · rw [if_neg htr]
      exact ⟨_, rfl⟩

theorem res_to_ckan_classified (r : PkgResource) :
    (∃ x, datapackage_resource_to_ckan_resource r = .ok x) ∨
    datapackage_resource_to_ckan_resource r = .error .notImplementedError := by
  obtain ⟨d, m, s⟩ := r
  cases m with
  | localMode => exact Or.inl ⟨_, rfl⟩
  | remoteMode => exact Or.inl ⟨_, rfl⟩
  | inlineMode => exact Or.inl ⟨_, rfl⟩
  | multipartMode => exact Or.inr rfl

theorem runPackageParsers_classified (slug : String → String)
    (jd : Val → String) {descriptor : Obj} (dd : Obj)
    (hs : wfSources (oget descriptor "sources") = true)
    (hk : wfKeywords (oget descriptor "keywords") = true) :
    (∃ out, runPackageParsers slug jd descriptor dd = .ok out) ∨
    runPackageParsers slug jd descriptor dd = .error (.keyError "url") ∨
    runPackageParsers slug jd descriptor dd = .error .attributeError := by
  simp only [runPackageParsers]
  rcases license_classified descriptor with ⟨l, hl⟩ | hl
  · simp only [hl]
    obtain ⟨s, hsrc⟩ := sources_ok hs
    simp only [hsrc]
    rcases author_classified descriptor with ⟨a, ha⟩ | ha
    · simp only [ha]
      obtain ⟨k, hkw⟩ := keywords_ok slug hk
      simp only [hkw]
      exact Or.inl ⟨_, rfl⟩
    · simp only [ha]
      exact Or.inr (Or.inr True.intro)
  · simp only [hl]
    exact Or.inr (Or.inl True.intro)

theorem runDatasetParsers_ok (jl : String → Option Val) {d : Obj} (dp : Obj)
    (ht : (match oget d "tags" with
           | some (.list ts) => ts.all wfTag
           | none => true
           | some _ => false) = true)
    (hx : (match oget d "extras" with
           | some (.list es) => es.all wfExtra
           | none => true
           | some _ => false) = true) :
    ∃ out, runDatasetParsers jl d dp = .ok out := by
  obtain ⟨t, htt⟩ := parse_tags_ok ht
  obtain ⟨x, hxx⟩ := @parse_extras_ok jl d hx
  simp only [runDatasetParsers, htt, hxx]
  exact ⟨_, rfl⟩

theorem dataset_side_classified {slug : String → String}
    {jl : String → Option Val} {d : Obj} (h : WFDataset d = true) :
    (∃ p, dataset_to_datapackage slug jl d = .ok p) ∨
    dataset_to_datapackage slug jl d = .error (.keyError "name") := by
  simp only [WFDataset, Bool.and_eq_true] at h
  simp only [dataset_to_datapackage]
  cases hnm : oget d "name" with
  | none =>
    have hgi : getItem d "name" = .error (.keyError "name") := by
      unfold getItem
      rw [hnm]
    simp only [hgi]
    exact Or.inr True.intro
  | some nv =>
    have hgi : getItem d "name" = .ok nv := by
      unfold getItem
      rw [hnm]
    simp only [hgi]
    obtain ⟨dp, hdp⟩ := runDatasetParsers_ok jl [("name", nv)] h.1.1 h.1.2
    simp only [hdp]
    have h3 := h.2
    cases hres : oget d "resources" with
    | none => exact Or.inl ⟨_, rfl⟩
    | some rv =>
      rw [hres] at h3
      dsimp only
      cases rv with
      | list rs =>
        by_cases htr : truthy (Val.list rs) = true
        · rw [if_pos htr]
          have hall : ∀ r ∈ rs, ∃ cr,
              convert_to_datapackage_resource slug jl r = .ok cr := by
            intro r hr
            obtain ⟨cr, hcr, _⟩ :=
              @conv_resource_ok slug jl r (List.all_eq_true.mp h3 r hr)
            exact ⟨cr, hcr⟩
          obtain ⟨crs, hcrs, hprov⟩ := mapExcept_ok_of_forall hall
          have hnames : ∀ cr ∈ crs, ∃ s, oget cr "name" = some (.str s) := by
            intro cr hcr
            obtain ⟨r, hr, hfr⟩ := hprov cr hcr
            obtain ⟨cr2, hcr2, s, hsn⟩ :=
              @conv_resource_ok slug jl r (List.all_eq_true.mp h3 r hr)
            have he : (Except.ok cr : Except PyErr Obj) = Except.ok cr2 :=
              hfr.symm.trans hcr2
            injection he with he2
            rw [he2]
            exact ⟨s, hsn⟩
          obtain ⟨out, hout⟩ := dedup_ok_of_str crs [] hnames
          simp only [hcrs, hout]
          exact Or.inl ⟨_, rfl⟩
        · rw [if_neg htr]
          exact Or.inl ⟨_, rfl⟩
      | null => simp at h3
      | bool b => simp at h3
      | int n => simp at h3
      | str s => simp at h3
      | dict o2 => simp at h3

theorem package_side_classified {slug : String → String} {jd : Val → String}
    {pkg : Package} (h : WFPackage pkg = true) :
    (∃ out, datapackage_to_dataset slug jd pkg = .ok out) ∨
    datapackage_to_dataset slug jd pkg = .error (.keyError "name") ∨
    datapackage_to_dataset slug jd pkg = .error .notImplementedError ∨
    datapackage_to_dataset slug jd pkg = .error (.keyError "url") ∨
    datapackage_to_dataset slug jd pkg = .error .attributeError := by
  simp only [WFPackage, Bool.and_eq_true] at h
  simp only [datapackage_to_dataset]
  cases hnm : oget pkg.descriptor "name" with
  | none =>
    have hgi : getItem pkg.descriptor "name" = .error (.keyError "name") := by
      unfold getItem
      rw [hnm]
    simp only [hgi]
    exact Or.inr (Or.inl True.intro)
  | some nv =>
    have hgi : getItem pkg.descriptor "name" = .ok nv := by
      unfold getItem
      rw [hnm]
    simp only [hgi]
    cases nv with
    | str s =>
      rcases runPackageParsers_classified slug jd
          [("name", .str (strLower s))] h.1 h.2 with ⟨dd, hrun⟩ | hrun | hrun
      · simp only [hrun]
        by_cases hre : pkg.resources.isEmpty = true
        · rw [if_pos hre]
          exact Or.inl ⟨_, rfl⟩
        · rw [if_neg hre]
          rcases mapExcept_classified (l := pkg.resources)
              (E := PyErr.notImplementedError)
              (fun r _ => res_to_ckan_classified r) with ⟨rs, hrs⟩ | hrs
          · simp only [hrs]
            exact Or.inl ⟨_, rfl⟩
          · simp only [hrs]
            exact Or.inr (Or.inr (Or.inl True.intro))
      · simp only [hrun]
        exact Or.inr (Or.inr (Or.inr (Or.inl True.intro)))
      · simp only [hrun]
        exact Or.inr (Or.inr (Or.inr (Or.inr True.intro)))
    | null => exact Or.inr (Or.inr (Or.inr (Or.inr rfl)))
    | bool b => exact Or.inr (Or.inr (Or.inr (Or.inr rfl)))
    | int n => exact Or.inr (Or.inr (Or.inr (Or.inr rfl)))
    | list l => exact Or.inr (Or.inr (Or.inr (Or.inr rfl)))
    | dict o2 => exact Or.inr (Or.inr (Or.inr (Or.inr rfl)))

end FCM

namespace FCM.Claims

open FCM

/-- **C9** For every Dataset record whose only key is `name`,
`dataset_to_datapackage` returns a mapping containing exactly one key,
`name`, with the same value as the input. -/
theorem c9_name_only (slug : String → String) (jl : String → Option Val)
    (v : Val) :
    dataset_to_datapackage slug jl [("name", v)] = .ok [("name", v)] := rfl

/-- **C9 witness**: the theorem applied at a concrete dataset. -/
theorem c9_name_only_witness :
    dataset_to_datapackage (fun s => s) (fun _ => none)
      [("name", .str "hi")] = .ok [("name", .str "hi")] :=
  c9_name_only (fun s => s) (fun _ => none) (.str "hi")

/-- **C10** For every package whose descriptor lacks the key `name`,
`datapackage_to_dataset` fails with a key-lookup error (`KeyError 'name'`)
before producing any output. -/
theorem c10_missing_name (slug : String → String) (jd : Val → String)
    (pkg : Package) (h : oget pkg.descriptor "name" = none) :
    datapackage_to_dataset slug jd pkg = .error (.keyError "name") := by
  unfold datapackage_to_dataset getItem
  rw [h]

/-- **C10 witness**: a package with an empty descriptor. -/
theorem c10_missing_name_witness :
    oget (Package.mk [] []).descriptor "name" = none ∧
    datapackage_to_dataset (fun s => s) (fun _ => "") (Package.mk [] []) =
      .error (.keyError "name") :=
  ⟨rfl, c10_missing_name (fun s => s) (fun _ => "") (Package.mk [] []) rfl⟩

/-- **C1 counterexample** The de-duplicator does *not* guarantee unique
names for lists whose original names already contain suffixed forms: for
resources named `a`, `a`, `a0` the output names are `a`, `a0`, `a0` — the
renamed second resource collides with the third. -/
theorem c1_counterexample :
    dataset_to_datapackage (fun s => s) (fun _ => none)
      [("name", .str "d"),
       ("resources", .list [.dict [("name", .str "a")],
                            .dict [("name", .str "a")],
                            .dict [("name", .str "a0")]])] =
    .ok [("name", .str "d"),
         ("resources", .list [.dict [("name", .str "a"), ("title", .str "a")],
                              .dict [("name", .str "a0"), ("title", .str "a")],
                              .dict [("name", .str "a0"), ("title", .str "a0")]])] ∧
    ¬ ([Val.dict [("name", .str "a"), ("title", .str "a")],
        Val.dict [("name", .str "a0"), ("title", .str "a")],
        Val.dict [("name", .str "a0"), ("title", .str "a0")]].map
          resourceName).Pairwise (· ≠ ·) := by
  refine ⟨rfl, ?_⟩
  intro h
  have h2 := (List.pairwise_cons.mp (List.pairwise_cons.mp h).2).1
  have h3 : resourceName (Val.dict [("name", .str "a0"), ("title", .str "a")]) ≠
      resourceName (Val.dict [("name", .str "a0"), ("title", .str "a0")]) :=
    h2 _ (by simp)
  exact h3 rfl

/-- **C5** For a Dataset whose resources are three resources all named
`"a"` (with the slugifier fixing `"a"`), `dataset_to_datapackage` produces
resources named, in order, `a`, `a0`, `a1`. -/
theorem c5_dedup_numbering (slug : String → String) (jl : String → Option Val)
    (h : slug "a" = "a") :
    dataset_to_datapackage slug jl
      [("name", .str "d"),
       ("resources", .list [.dict [("name", .str "a")],
                            .dict [("name", .str "a")],
                            .dict [("name", .str "a")]])] =
    .ok [("name", .str "d"),
         ("resources", .list [.dict [("name", .str "a"), ("title", .str "a")],
                              .dict [("name", .str "a0"), ("title", .str "a")],
                              .dict [("name", .str "a1"), ("title", .str "a")]])] := by
  have key : dataset_to_datapackage slug jl
      [("name", .str "d"),
       ("resources", .list [.dict [("name", .str "a")],
                            .dict [("name", .str "a")],
                            .dict [("name", .str "a")]])] =
      match dedupResources []
          [[("name", Val.str (strLower (slug "a"))), ("title", Val.str "a")],
           [("name", Val.str (strLower (slug "a"))), ("title", Val.str "a")],
           [("name", Val.str (strLower (slug "a"))), ("title", Val.str "a")]] with
      | .error e => .error e
      | .ok crs2 => .ok (dset [("name", Val.str "d")] "resources"
          (.list (crs2.map Val.dict))) := rfl
  rw [h] at key
  exact key

/-- **C5 witness**: the identity slugifier fixes `"a"`. -/
theorem c5_dedup_numbering_witness :
    dataset_to_datapackage (fun s => s) (fun _ => none)
      [("name", .str "d"),
       ("resources", .list [.dict [("name", .str "a")],
                            .dict [("name", .str "a")],
                            .dict [("name", .str "a")]])] =
    .ok [("name", .str "d"),
         ("resources", .list [.dict [("name", .str "a"), ("title", .str "a")],
                              .dict [("name", .str "a0"), ("title", .str "a")],
                              .dict [("name", .str "a1"), ("title", .str "a")]])] :=
  c5_dedup_numbering (fun s => s) (fun _ => none) rfl

/-- **C2 counterexample** The round trip does not restore `name` (it is
lower-cased) and does not restore plain-string extras (the package-side
extras mapping is re-emitted as a single extra keyed `"extras"`). -/
theorem c2_counterexample :
    roundTrip (fun s => s) (fun _ => none) (fun _ => "E")
      [("name", .str "A"),
       ("extras", .list [.dict [("key", .str "k"), ("value", .str "v")]])] =
    .ok [("name", .str "a"),
         ("extras", .list [.dict [("key", .str "extras"), ("value", .str "E")]])] ∧
    Val.str "a" ≠ Val.str "A" ∧
    Val.list [.dict [("key", .str "extras"), ("value", .str "E")]] ≠
      Val.list [.dict [("key", .str "k"), ("value", .str "v")]] :=
  ⟨rfl, by simp, by simp⟩

/-- **C3 counterexample** For a license object with `type`, `title` and
`url` all present, the inverse license parser sets `license_url` to the
object's `url` value (not its `title`, as the claim states). -/
theorem c3_counterexample :
    datapackage_parse_license
      [("license", .dict [("type", .str "cc"), ("title", .str "CC Title"),
                          ("url", .str "http.cc")])] =
    .ok [("license_id", .str "cc"), ("license_title", .str "CC Title"),
         ("license_url", .str "http.cc")] ∧
    Val.str "http.cc" ≠ Val.str "CC Title" :=
  ⟨rfl, by simp⟩

/-- **C3 amended** A string license yields only `license_id`; a dict
license maps truthy `type` to `license_id` and truthy `title` to
`license_title`, and, when `title` is truthy, additionally copies the
mandatory `url` value to `license_url` — raising `KeyError('url')` when
`url` is absent. -/
theorem c3_license_amended :
    (∀ (o : Obj) (s : String), oget o "license" = some (.str s) → s ≠ "" →
      datapackage_parse_license o = .ok [("license_id", .str s)]) ∧
    (∀ (L : Obj) (tv TV uv : Val), oget L "type" = some tv → truthy tv = true →
      oget L "title" = some TV → truthy TV = true → oget L "url" = some uv →
      datapackage_parse_license [("license", .dict L)] =
        .ok [("license_id", tv), ("license_title", TV), ("license_url", uv)]) ∧
    (∀ (L : Obj) (TV : Val), oget L "title" = some TV → truthy TV = true →
      oget L "url" = none →
      datapackage_parse_license [("license", .dict L)] =
        .error (.keyError "url")) := by
  refine ⟨?_, ?_, ?_⟩
  · intro o s h hs
    unfold datapackage_parse_license
    rw [h]
    simp [truthy_str hs]
  · intro L tv TV uv htv htvt hTV hTVt huv
    have hL : L ≠ [] := oget_some_ne_nil htv
    unfold datapackage_parse_license
    simp only [oget, getItem, if_pos rfl, truthy_dict hL, if_true,
      otruthy, htv, htvt, hTV, hTVt, huv]
    simp [dset]
  · intro L TV hTV hTVt hurl
    have hL : L ≠ [] := oget_some_ne_nil hTV
    unfold datapackage_parse_license
    simp only [oget, getItem, if_pos rfl, truthy_dict hL, if_true,
      otruthy, hTV, hTVt, hurl]

/-- **C3 witness**: the amended behaviour evaluated at concrete licenses. -/
theorem c3_license_amended_witness :
    datapackage_parse_license [("license", .str "mit")] =
      .ok [("license_id", .str "mit")] ∧
    datapackage_parse_license
      [("license", .dict [("type", .str "t"), ("title", .str "T"),
                          ("url", .str "U")])] =
      .ok [("license_id", .str "t"), ("license_title", .str "T"),
           ("license_url", .str "U")] ∧
    datapackage_parse_license [("license", .dict [("title", .str "T")])] =
      .error (.keyError "url") :=
  ⟨c3_license_amended.1 [("license", .str "mit")] "mit" rfl (by decide),
   c3_license_amended.2.1 [("type", .str "t"), ("title", .str "T"),
     ("url", .str "U")] (.str "t") (.str "T") (.str "U") rfl rfl rfl rfl rfl,
   c3_license_amended.2.2 [("title", .str "T")] (.str "T") rfl rfl rfl⟩

/-- **C4 counterexample** A well-formed package whose license object has a
truthy `title` but no `url` makes the conversion fail with
`KeyError('url')` — a failure that is neither of the two error kinds the
claim allows. -/
theorem c4_counterexample :
    datapackage_to_dataset (fun s => s) (fun _ => "")
      ⟨[("name", .str "n"), ("license", .dict [("title", .str "T")])], []⟩ =
      .error (.keyError "url") ∧
    PyErr.keyError "url" ≠ PyErr.keyError "name" ∧
    PyErr.keyError "url" ≠ PyErr.notImplementedError :=
  ⟨rfl, by decide, by decide⟩

/-- **C6** The package-side resource converter emits `path` = source for a
local-mode resource, `url` = source for a remote one, `data` = source for
an inline one, and any resource of any other mode makes the whole
conversion fail (no partial output). -/
theorem c6_storage_modes :
    (∀ (r : PkgResource) (rd : Obj), r.mode = .localMode →
       datapackage_resource_to_ckan_resource r = .ok rd →
       oget rd "path" = some r.source) ∧
    (∀ (r : PkgResource) (rd : Obj), r.mode = .remoteMode →
       datapackage_resource_to_ckan_resource r = .ok rd →
       oget rd "url" = some r.source) ∧
    (∀ (r : PkgResource) (rd : Obj), r.mode = .inlineMode →
       datapackage_resource_to_ckan_resource r = .ok rd →
       oget rd "data" = some r.source) ∧
    (∀ (slug : String → String) (jd : Val → String) (pkg : Package)
       (r : PkgResource), r ∈ pkg.resources → r.mode = .multipartMode →
       ∀ out, datapackage_to_dataset slug jd pkg ≠ .ok out) := by
  have hmode : ∀ (r : PkgResource), r.mode = .multipartMode →
      datapackage_resource_to_ckan_resource r = .error .notImplementedError := by
    intro r hm
    unfold datapackage_resource_to_ckan_resource
    rw [hm]
  refine ⟨?_, ?_, ?_, ?_⟩
  · intro r rd hm h
    unfold datapackage_resource_to_ckan_resource at h
    rw [hm] at h
    have hrd := (Except.ok.injEq _ _).mp h
    rw [← hrd]
    rw [oget_tailFields_ne _ _ (by decide) (by decide) (by decide) (by decide)]
    exact oget_dset_self _ _ _
  · intro r rd hm h
    unfold datapackage_resource_to_ckan_resource at h
    rw [hm] at h
    have hrd := (Except.ok.injEq _ _).mp h
    rw [← hrd]
    rw [oget_tailFields_ne _ _ (by decide) (by decide) (by decide) (by decide)]
    exact oget_dset_self _ _ _
  · intro r rd hm h
    unfold datapackage_resource_to_ckan_resource at h
    rw [hm] at h
    have hrd := (Except.ok.injEq _ _).mp h
    rw [← hrd]
    rw [oget_tailFields_ne _ _ (by decide) (by decide) (by decide) (by decide)]
    exact oget_dset_self _ _ _
  · intro slug jd pkg r hmem hm out hp
    unfold datapackage_to_dataset at hp
    split at hp
    · exact absurd hp (by simp)
    · split at hp
      · split at hp
        · exact absurd hp (by simp)
        · have hne : pkg.resources ≠ [] := List.ne_nil_of_mem hmem
          have hie : pkg.resources.isEmpty = false := by
            simp [List.isEmpty_eq_false, hne]
          rw [hie] at hp
          simp only [Bool.false_eq_true, if_false] at hp
          split at hp
          · exact absurd hp (by simp)
          · rename_i rs hmap
            obtain ⟨b, hb⟩ := mapExcept_ok_forall hmap r hmem
            rw [hmode r hm] at hb
            exact absurd hb (by simp)
      · exact absurd hp (by simp)

/-- **C6 witness**: a local resource, and a package holding a multipart
resource that aborts the conversion. -/
theorem c6_storage_modes_witness :
    oget ((datapackage_resource_to_ckan_resource
        ⟨[("name", .str "r")], .localMode, .str "f.csv"⟩).toOption.getD [])
      "path" = some (.str "f.csv") ∧
    datapackage_to_dataset (fun s => s) (fun _ => "")
      ⟨[("name", .str "n")], [⟨[], .multipartMode, .null⟩]⟩ ≠
      .ok [("name", .str "n")] := by
  constructor
  · exact c6_storage_modes.1 ⟨[("name", .str "r")], .localMode, .str "f.csv"⟩
      [("name", .str "r"), ("path", .str "f.csv")] rfl rfl
  · exact c6_storage_modes.2.2.2 (fun s => s) (fun _ => "")
      ⟨[("name", .str "n")], [⟨[], .multipartMode, .null⟩]⟩
      ⟨[], .multipartMode, .null⟩ (List.mem_singleton.mpr rfl) rfl
      [("name", .str "n")]

/-- **C8** `datapackage_to_dataset` converts the string author
`"Jane Doe <jane@x.org>"` to `maintainer` `"Jane Doe"` and
`maintainer_email` `"jane@x.org"`; and for every nonempty author string
containing no `'<'`, the author parser emits only `maintainer`, equal to
the string trimmed of surrounding whitespace. -/
theorem c8_author_parsing :
    (∀ (slug : String → String) (jd : Val → String),
      datapackage_to_dataset slug jd
        ⟨[("name", .str "n"), ("author", .str "Jane Doe <jane@x.org>")], []⟩ =
      .ok [("name", .str "n"), ("maintainer", .str "Jane Doe"),
           ("maintainer_email", .str "jane@x.org")]) ∧
    (∀ s : String, s ≠ "" → (∀ c ∈ s.data, c ≠ '<') →
      datapackage_parse_author [("author", .str s)] =
        .ok [("maintainer", .str (strTrim s))]) := by
  constructor
  · intro slug jd
    rfl
  · intro s hs hlt
    have htake : s.data.takeWhile (· ≠ '<') = s.data := by
      apply List.takeWhile_eq_self_iff.mpr
      intro c hc
      simp [hlt c hc]
    have hdrop : s.data.dropWhile (· ≠ '<') = [] := by
      apply List.dropWhile_eq_nil_iff.mpr
      intro c hc
      simp [hlt c hc]
    have hie : s.data.isEmpty = false := by
      simp [List.isEmpty_eq_false, str_data_ne_nil hs]
    have hmatch : matchAuthor s = .ok (s, none) := by
      unfold matchAuthor
      simp only [htake, hdrop, hie, Bool.false_eq_true, if_false]
    unfold datapackage_parse_author
    simp only [oget, if_pos rfl, truthy_str hs, if_true, hmatch]
    rw [if_pos hs]

/-- **C8 witness**: the second part at the concrete author `"  Jo hn  "`. -/
theorem c8_author_parsing_witness :
    datapackage_parse_author [("author", .str "  Jo hn  ")] =
      .ok [("maintainer", .str "Jo hn")] :=
  c8_author_parsing.2 "  Jo hn  " (by decide) (by decide)

/-- **C7** The dataset-side resource converter maps a truthy `url` to
`path`; copies `description`, `format` and `hash` when present (truthy);
when `name` is a nonempty string it sets the package `name` to the
slugified lower-cased name and `title` to the original name, and when
`name` is absent or falsy it uses the resource's `id` value as `name`; a
string `schema` is decoded when possible and kept as the raw string on
decode failure, while a dict `schema` is copied verbatim. -/
theorem c7_dataset_resource (slug : String → String) (jl : String → Option Val)
    (o out : Obj)
    (h : convert_to_datapackage_resource slug jl (.dict o) = .ok out) :
    (otruthy o "url" = true → oget out "path" = oget o "url") ∧
    (otruthy o "description" = true → oget out "description" = oget o "description") ∧
    (otruthy o "format" = true → oget out "format" = oget o "format") ∧
    (otruthy o "hash" = true → oget out "hash" = oget o "hash") ∧
    (∀ s, oget o "name" = some (.str s) → s ≠ "" →
      oget out "name" = some (.str (strLower (slug s))) ∧
      oget out "title" = some (.str s)) ∧
    (otruthy o "name" = false → oget out "name" = oget o "id") ∧
    (∀ s, oget o "schema" = some (.str s) →
      oget out "schema" = some ((jl s).getD (.str s))) ∧
    (∀ m, oget o "schema" = some (.dict m) →
      oget out "schema" = some (.dict m)) := by
  simp only [convert_to_datapackage_resource] at h
  split at h
  next nv heq =>
    split at h
    next htr =>
      split at h
      next s0 =>
        injection h with h2
        subst h2
        refine ⟨?_, ?_, ?_, ?_, ?_, ?_, ?_, ?_⟩
        · intro hx
          simp [oget_schemaStep_ne, oget_dset_ne, oget_copyIf_ne,
            oget_copyIf_self, oget, hx]
        · intro hx
          simp [oget_schemaStep_ne, oget_dset_ne, oget_copyIf_ne,
            oget_copyIf_self, oget, hx]
        · intro hx
          simp [oget_schemaStep_ne, oget_dset_ne, oget_copyIf_ne,
            oget_copyIf_self, oget, hx]
        · intro hx
          simp [oget_schemaStep_ne, oget_dset_ne, oget_copyIf_ne,
            oget_copyIf_self, oget, hx]
        · intro s hs hne
          rw [heq] at hs
          have hs2 : Val.str s0 = Val.str s := by injection hs
          have hs3 : s0 = s := by injection hs2
          subst hs3
          constructor
          · simp [oget_schemaStep_ne, oget_dset_ne, oget_dset_self]
          · simp [oget_schemaStep_ne, oget_dset_ne, oget_dset_self]
        · intro hx
          rw [otruthy, heq] at hx
          simp [htr] at hx
        · intro s hs
          rw [oget_schemaStep_str jl o _ hs]
        · intro m hs
          rw [oget_schemaStep_dict jl o _ hs]
      all_goals exact absurd h (by simp)
    next htr =>
      split at h
      next idv hid =>
        injection h with h2
        subst h2
        have hidg : oget o "id" = some idv := getItem_ok hid
        refine ⟨?_, ?_, ?_, ?_, ?_, ?_, ?_, ?_⟩
        · intro hx
          simp [oget_schemaStep_ne, oget_dset_ne, oget_copyIf_ne,
            oget_copyIf_self, oget, hx]
        · intro hx
          simp [oget_schemaStep_ne, oget_dset_ne, oget_copyIf_ne,
            oget_copyIf_self, oget, hx]
        · intro hx
          simp [oget_schemaStep_ne, oget_dset_ne, oget_copyIf_ne,
            oget_copyIf_self, oget, hx]
        · intro hx
          simp [oget_schemaStep_ne, oget_dset_ne, oget_copyIf_ne,
            oget_copyIf_self, oget, hx]
        · intro s hs hne
          rw [heq] at hs
          have hs2 : nv = Val.str s := by injection hs
          subst hs2
          exact absurd (truthy_str hne) htr
        · intro hx
          rw [hidg]
          simp [oget_schemaStep_ne, oget_dset_self]
        · intro s hs
          rw [oget_schemaStep_str jl o _ hs]
        · intro m hs
          rw [oget_schemaStep_dict jl o _ hs]
      next e hid => exact absurd h (by simp)
  next heq =>
    split at h
    next idv hid =>
      injection h with h2
      subst h2
      have hidg : oget o "id" = some idv := getItem_ok hid
      refine ⟨?_, ?_, ?_, ?_, ?_, ?_, ?_, ?_⟩
      · intro hx
        simp [oget_schemaStep_ne, oget_dset_ne, oget_copyIf_ne,
          oget_copyIf_self, oget, hx]
      · intro hx
        simp [oget_schemaStep_ne, oget_dset_ne, oget_copyIf_ne,
          oget_copyIf_self, oget, hx]
      · intro hx
        simp [oget_schemaStep_ne, oget_dset_ne, oget_copyIf_ne,
          oget_copyIf_self, oget, hx]
      · intro hx
        simp [oget_schemaStep_ne, oget_dset_ne, oget_copyIf_ne,
          oget_copyIf_self, oget, hx]
      · intro s hs hne
        rw [heq] at hs
        exact absurd hs (by simp)
      · intro hx
        rw [hidg]
        simp [oget_schemaStep_ne, oget_dset_self]
      · intro s hs
        rw [oget_schemaStep_str jl o _ hs]
      · intro m hs
        rw [oget_schemaStep_dict jl o _ hs]
    next e hid => exact absurd h (by simp)


/-- **C7 witness**: the converter evaluated on a fully-populated resource
(with the identity slugifier and a failing decoder). -/
theorem c7_dataset_resource_witness :
    oget [("path", Val.str "u"), ("description", Val.str "de"),
          ("format", Val.str "csv"), ("hash", Val.str "h"),
          ("name", Val.str "n"), ("title", Val.str "N"),
          ("schema", Val.str "sch")] "path" = some (.str "u") ∧
    oget [("path", Val.str "u"), ("description", Val.str "de"),
          ("format", Val.str "csv"), ("hash", Val.str "h"),
          ("name", Val.str "n"), ("title", Val.str "N"),
          ("schema", Val.str "sch")] "name" = some (.str "n") ∧
    oget [("path", Val.str "u"), ("description", Val.str "de"),
          ("format", Val.str "csv"), ("hash", Val.str "h"),
          ("name", Val.str "n"), ("title", Val.str "N"),
          ("schema", Val.str "sch")] "schema" = some (.str "sch") := by
  have h := c7_dataset_resource (fun s => s) (fun _ => none)
    [("url", .str "u"), ("description", .str "de"), ("format", .str "csv"),
     ("hash", .str "h"), ("name", .str "N"), ("schema", .str "sch")]
    [("path", Val.str "u"), ("description", Val.str "de"),
     ("format", Val.str "csv"), ("hash", Val.str "h"),
     ("name", Val.str "n"), ("title", Val.str "N"),
     ("schema", Val.str "sch")] rfl
  exact ⟨h.1 rfl, (h.2.2.2.2.1 "N" rfl (by decide)).1, h.2.2.2.2.2.2.1 "sch" rfl⟩

/-- **C1 amended** The resource list in the output of
`dataset_to_datapackage` has pairwise distinct `name` values *provided* no
converted resource name equals another converted resource name followed by
a nonempty digit string.  (The unrestricted claim is false: see the
counterexample with original names `a`, `a`, `a0`.) -/
theorem c1_unique_names_amended (slug : String → String) (jl : String → Option Val)
    (d : Obj) (rl : List Val) (rs0 : List Obj) (p : Obj)
    (hres : oget d "resources" = some (.list rl)) (hrl : rl ≠ [])
    (hmap : mapExcept (convert_to_datapackage_resource slug jl) rl = .ok rs0)
    (hstr : ∀ r ∈ rs0, ∃ s, oget r "name" = some (.str s))
    (hns : ∀ r r2, r ∈ rs0 → r2 ∈ rs0 → ∀ s s2 t,
      oget r "name" = some (.str s) → oget r2 "name" = some (.str s2) →
      isDigitStr t → s2 ≠ s ++ t)
    (hp : dataset_to_datapackage slug jl d = .ok p) :
    ∃ rv : List Val, oget p "resources" = some (.list rv) ∧
      (rv.map resourceName).Pairwise (· ≠ ·) := by
  unfold dataset_to_datapackage at hp
  split at hp
  · exact absurd hp (by simp)
  · split at hp
    · exact absurd hp (by simp)
    · rename_i dp hrun
      split at hp
      · rename_i resources heq
        rw [hres] at heq
        injection heq with heq2
        subst heq2
        rw [truthy_list hrl] at hp
        simp only [if_true] at hp
        obtain ⟨out, ns, hdd, hmapn, hnd, _⟩ :=
          dedup_main (fun s => ∃ r ∈ rs0, oget r "name" = some (.str s))
            (by
              rintro a b ⟨ra, hra, hga⟩ ⟨rb, hrb, hgb⟩ t ht
              exact hns ra rb hra hrb a b t hga hgb ht)
            rs0 [] []
            (fun r hr => by
              obtain ⟨s, hs⟩ := hstr r hr
              exact ⟨s, hs, r, hr, hs⟩)
            (by simp)
            (by simp)
        split at hp
        · rename_i e hmap2
          rw [hmap] at hmap2
          exact absurd hmap2 (by simp)
        · rename_i crs hmap2
          rw [hmap] at hmap2
          injection hmap2 with hmap3
          subst hmap3
          split at hp
          · rename_i e hdd2
            rw [hdd] at hdd2
            exact absurd hdd2 (by simp)
          · rename_i out2 hdd2
            rw [hdd] at hdd2
            injection hdd2 with hdd3
            subst hdd3
            have hpp : dset dp "resources" (.list (out.map Val.dict)) = p := by
              injection hp
            subst hpp
            refine ⟨out.map Val.dict, oget_dset_self _ _ _, ?_⟩
            have hmm : (out.map Val.dict).map resourceName =
                out.map (fun r => oget r "name") := by
              rw [List.map_map]
              rfl
            rw [hmm, hmapn]
            have hpw : ns.Pairwise (· ≠ ·) := hnd
            exact hpw.map _ (by
              intro a b hab
              simp [hab])
      · rename_i heq
        rw [hres] at heq
        exact absurd heq (by simp)


/-- **C1 witness**: the amended theorem applied to a one-resource dataset. -/
theorem c1_unique_names_amended_witness :
    ∃ rv : List Val,
      oget [("name", Val.str "d"),
            ("resources", Val.list [.dict [("name", Val.str "a"),
                                           ("title", Val.str "a")]])]
        "resources" = some (.list rv) ∧
      (rv.map resourceName).Pairwise (· ≠ ·) := by
  apply c1_unique_names_amended (fun s => s) (fun _ => none)
    [("name", .str "d"), ("resources", .list [.dict [("name", .str "a")]])]
    [.dict [("name", .str "a")]]
    [[("name", .str "a"), ("title", .str "a")]]
    _ rfl (by simp) rfl
  · intro r hr
    rw [List.mem_singleton] at hr
    subst hr
    exact ⟨"a", rfl⟩
  · intro r r2 hr hr2 s s2 t hs hs2 ht
    rw [List.mem_singleton] at hr hr2
    subst hr
    subst hr2
    simp [oget] at hs hs2
    subst hs
    subst hs2
    exact ne_self_append_digit ht
  · rfl

/-- **C2 amended** Whenever the Dataset → Package → Dataset round trip
succeeds, the resulting record's `name` is the lower-cased original;
`title`, `version` and `notes` equal the originals (when truthy); `tags`
equal the slugified originals; and extras are *not* restored: every
extras-derived output entry is keyed by the literal string `"extras"`
(the package-side extras mapping is re-encoded wholesale, because
`"extras"` is missing from `known_fields`). -/
theorem c2_roundtrip_amended (slug : String → String) (jl : String → Option Val)
    (jd : Val → String) (d : Obj) (n : String) (rt : Obj)
    (hn : oget d "name" = some (.str n))
    (hr : roundTrip slug jl jd d = .ok rt) :
    oget rt "name" = some (.str (strLower n)) ∧
    (otruthy d "title" = true → oget rt "title" = oget d "title") ∧
    (otruthy d "version" = true → oget rt "version" = oget d "version") ∧
    (otruthy d "notes" = true → oget rt "notes" = oget d "notes") ∧
    (∀ ts : List String,
      oget d "tags" = some (.list (ts.map (fun t =>
        Val.dict [("name", Val.str t)]))) → ts ≠ [] →
      oget rt "tags" = some (.list (ts.map (fun t =>
        Val.dict [("name", Val.str (slug t))])))) ∧
    (∀ es : List (String × Val),
      oget d "extras" = some (.list (es.map (fun kv =>
        Val.dict [("key", Val.str kv.1), ("value", kv.2)]))) → es ≠ [] →
      ∃ el, oget rt "extras" = some (.list el) ∧ el ≠ [] ∧
        ∀ e ∈ el, ∃ ev, e = Val.dict [("key", Val.str "extras"),
          ("value", ev)]) := by
  unfold roundTrip at hr
  split at hr
  · exact absurd hr (by simp)
  · rename_i p hp
    unfold dataset_to_datapackage at hp
    split at hp
    · exact absurd hp (by simp)
    · rename_i nv hnv
      have hnveq : nv = .str n := by
        have h2 := getItem_ok hnv
        rw [hn] at h2
        injection h2 with h3
        exact h3.symm
      subst hnveq
      split at hp
      · exact absurd hp (by simp)
      · rename_i dp hdp
        obtain ⟨dpgen, dptitle, dpversion, dpdesc, dptags, dpextras, dpkeys⟩ :=
          runDatasetParsers_facts jl d [("name", Val.str n)] dp hdp
        have hpfacts : (∀ q : String, ¬ q = "resources" →
            oget p q = oget dp q) ∧
            (∀ kv ∈ p, kv ∈ dp ∨ kv.1 = "resources") := by
          split at hp
          · split at hp
            · split at hp
              · split at hp
                · exact absurd hp (by simp)
                · split at hp
                  · exact absurd hp (by simp)
                  · injection hp with hp2
                    subst hp2
                    constructor
                    · intro q hq
                      exact oget_dset_ne _ _ hq
                    · intro kv hkv
                      rcases mem_dset hkv with h2 | h2
                      · exact Or.inr h2
                      · exact Or.inl h2
              · exact absurd hp (by simp)
            · injection hp with hp2
              subst hp2
              exact ⟨fun q _ => rfl, fun kv h2 => Or.inl h2⟩
          · injection hp with hp2
            subst hp2
            exact ⟨fun q _ => rfl, fun kv h2 => Or.inl h2⟩
        obtain ⟨hpq, hpkeys⟩ := hpfacts
        have hpname : oget p "name" = some (.str n) := by
          rw [hpq "name" (by decide), dpgen "name" (by decide)]
          simp [oget]
        unfold datapackage_to_dataset at hr
        split at hr
        · rename_i e hge
          have hg2 : getItem p "name" = .error e := hge
          simp [getItem, hpname] at hg2
        · rename_i nv2 hnv2g
          have hg3 : Val.str n = nv2 := by
            have h5 : getItem p "name" = .ok nv2 := hnv2g
            unfold getItem at h5
            rw [hpname] at h5
            exact (Except.ok.injEq _ _).mp h5
          split at hr
          · rename_i s
            have hsn : s = n := by
              injection hg3 with h4
              exact h4.symm
            subst hsn
            split at hr
            · exact absurd hr (by simp)
            · rename_i dd hdd
              have hdd2 : runPackageParsers slug jd p
                  [("name", Val.str (strLower s))] = .ok dd := hdd
              have hrt : dd = rt := by injection hr
              subst hrt
              obtain ⟨ggen, gtitle, gversion, gnotes, gtags, gextras⟩ :=
                runPackageParsers_facts slug jd p
                  [("name", Val.str (strLower s))] dd hdd2
              refine ⟨?_, ?_, ?_, ?_, ?_, ?_⟩
              · rw [ggen "name" (by decide)]
                simp [oget]
              · intro htd
                have hpt : oget p "title" = oget d "title" := by
                  rw [hpq _ (by decide), dptitle, if_pos htd]
                have hot : otruthy p "title" = true := by
                  have h4 := htd
                  unfold otruthy at h4 ⊢
                  rw [hpt]
                  exact h4
                rw [gtitle, if_pos hot, hpt]
              · intro htd
                have hpt : oget p "version" = oget d "version" := by
                  rw [hpq _ (by decide), dpversion, if_pos htd]
                have hot : otruthy p "version" = true := by
                  have h4 := htd
                  unfold otruthy at h4 ⊢
                  rw [hpt]
                  exact h4
                rw [gversion, if_pos hot, hpt]
              · intro htd
                have hpt : oget p "description" = oget d "notes" := by
                  rw [hpq _ (by decide), dpdesc, if_pos htd]
                have hot : otruthy p "description" = true := by
                  have h4 := htd
                  unfold otruthy at h4
                  unfold otruthy
                  rw [hpt]
                  exact h4
                rw [gnotes, if_pos hot, hpt]
              · intro ts htags hne
                have hkw : oget p "keywords" =
                    some (.list (ts.map Val.str)) := by
                  rw [hpq _ (by decide)]
                  exact dptags _ (parse_tags_computed d ts htags hne) _ rfl
                exact gtags _ (dp_keywords_computed slug p ts hkw hne) _ rfl
              · intro es hex hne
                have hpex : oget p "extras" = some (.dict (dupdate []
                    (es.map (fun kv => (kv.1, match kv.2 with
                      | Val.str str => (jl str).getD (.str str)
                      | v => v))))) := by
                  rw [hpq _ (by decide)]
                  exact dpextras _ (parse_extras_computed jl d es hex hne) _ rfl
                have hsub : ∀ kv ∈ p, kv.1 ∈ known_fields ∨ kv.1 = "extras" := by
                  intro kv hkv
                  rcases hpkeys kv hkv with h2 | h2
                  · rcases dpkeys kv h2 with h3 | h3
                    · have h5 : kv.1 = "name" := by
                        rw [List.mem_singleton.mp h3]
                      exact Or.inl (by rw [h5]; decide)
                    · simp only [List.mem_cons] at h3
                      rcases h3 with h4 | h4 | h4 | h4 | h4 | h4 | h4 | h4 | h4 | h4
                      · exact Or.inl (by rw [h4]; decide)
                      · exact Or.inl (by rw [h4]; decide)
                      · exact Or.inl (by rw [h4]; decide)
                      · exact Or.inl (by rw [h4]; decide)
                      · exact Or.inl (by rw [h4]; decide)
                      · exact Or.inl (by rw [h4]; decide)
                      · exact Or.inl (by rw [h4]; decide)
                      · exact Or.inl (by rw [h4]; decide)
                      · exact Or.inr h4
                      · simp at h4
                  · rw [h2]
                    exact Or.inl (by decide)
                obtain ⟨el, heldef, helne, helkeys⟩ :=
                  unknown_fields_extras_shape jd p _ hpex hsub
                exact ⟨el, gextras _ heldef, helne, helkeys⟩
          all_goals exact absurd hr (by simp)


/-- **C2 witness**: the round trip on a dataset carrying every relevant
field, with the identity slugifier, a failing decoder and a constant
encoder. -/
theorem c2_roundtrip_amended_witness :
    oget [("name", Val.str "ab"), ("title", Val.str "T"),
          ("version", Val.str "1"), ("notes", Val.str "N"),
          ("tags", Val.list [.dict [("name", Val.str "t1")]]),
          ("extras", Val.list [.dict [("key", Val.str "extras"),
                                      ("value", Val.str "E")]])]
      "name" = some (.str "ab") ∧
    oget [("name", Val.str "ab"), ("title", Val.str "T"),
          ("version", Val.str "1"), ("notes", Val.str "N"),
          ("tags", Val.list [.dict [("name", Val.str "t1")]]),
          ("extras", Val.list [.dict [("key", Val.str "extras"),
                                      ("value", Val.str "E")]])]
      "title" = some (.str "T") ∧
    oget [("name", Val.str "ab"), ("title", Val.str "T"),
          ("version", Val.str "1"), ("notes", Val.str "N"),
          ("tags", Val.list [.dict [("name", Val.str "t1")]]),
          ("extras", Val.list [.dict [("key", Val.str "extras"),
                                      ("value", Val.str "E")]])]
      "tags" = some (.list [.dict [("name", Val.str "t1")]]) ∧
    ∃ el, oget [("name", Val.str "ab"), ("title", Val.str "T"),
          ("version", Val.str "1"), ("notes", Val.str "N"),
          ("tags", Val.list [.dict [("name", Val.str "t1")]]),
          ("extras", Val.list [.dict [("key", Val.str "extras"),
                                      ("value", Val.str "E")]])]
      "extras" = some (.list el) ∧ el ≠ [] ∧
      ∀ e ∈ el, ∃ ev, e = Val.dict [("key", Val.str "extras"),
        ("value", ev)] := by
  have h := c2_roundtrip_amended (fun s => s) (fun _ => none) (fun _ => "E")
    [("name", .str "AB"), ("title", .str "T"), ("version", .str "1"),
     ("notes", .str "N"), ("tags", .list [.dict [("name", .str "t1")]]),
     ("extras", .list [.dict [("key", .str "k"), ("value", .str "v")]])]
    "AB"
    [("name", Val.str "ab"), ("title", Val.str "T"),
     ("version", Val.str "1"), ("notes", Val.str "N"),
     ("tags", Val.list [.dict [("name", Val.str "t1")]]),
     ("extras", Val.list [.dict [("key", Val.str "extras"),
                                 ("value", Val.str "E")]])]
    rfl rfl
  exact ⟨h.1, h.2.1 rfl, h.2.2.2.2.1 ["t1"] rfl (by simp),
    h.2.2.2.2.2 [("k", .str "v")] rfl (by simp)⟩


/-- **C4** (amended): on well-formed inputs the only failures are: dataset →
package fails only with `KeyError('name')`; package → dataset fails only
with `KeyError('name')`, `NotImplementedError` (multipart resource),
`KeyError('url')` (license with truthy `title` and no `url`), or
`AttributeError` (author parsing / non-string name). -/
theorem c4_error_taxonomy_amended :
    (∀ (slug : String → String) (jl : String → Option Val) (d : Obj),
       WFDataset d = true →
       (∃ p, dataset_to_datapackage slug jl d = .ok p) ∨
       dataset_to_datapackage slug jl d = .error (.keyError "name")) ∧
    (∀ (slug : String → String) (jd : Val → String) (pkg : Package),
       WFPackage pkg = true →
       (∃ out, datapackage_to_dataset slug jd pkg = .ok out) ∨
       datapackage_to_dataset slug jd pkg = .error (.keyError "name") ∨
       datapackage_to_dataset slug jd pkg = .error .notImplementedError ∨
       datapackage_to_dataset slug jd pkg = .error (.keyError "url") ∨
       datapackage_to_dataset slug jd pkg = .error .attributeError) :=
  ⟨fun _ _ _ h => dataset_side_classified h,
   fun _ _ _ h => package_side_classified h⟩

/-- Witness for the amended C4 theorem at concrete well-formed inputs. -/
theorem c4_error_taxonomy_amended_witness :
    WFDataset [("name", Val.str "d"),
               ("resources", .list [.dict [("name", .str "r")]])] = true ∧
    WFPackage ⟨[("name", Val.str "P"), ("keywords", .list [.str "k"])],
               [⟨[("name", .str "n")], .localMode, .str "f.csv"⟩]⟩ = true ∧
    ((∃ p, dataset_to_datapackage (fun s => s) (fun _ => none)
        [("name", Val.str "d"),
         ("resources", .list [.dict [("name", .str "r")]])] = .ok p) ∨
      dataset_to_datapackage (fun s => s) (fun _ => none)
        [("name", Val.str "d"),
         ("resources", .list [.dict [("name", .str "r")]])] =
        .error (.keyError "name")) ∧
    ((∃ out, datapackage_to_dataset (fun s => s) (fun _ => "")
        ⟨[("name", Val.str "P"), ("keywords", .list [.str "k"])],
         [⟨[("name", .str "n")], .localMode, .str "f.csv"⟩]⟩ = .ok out) ∨
      datapackage_to_dataset (fun s => s) (fun _ => "")
        ⟨[("name", Val.str "P"), ("keywords", .list [.str "k"])],
         [⟨[("name", .str "n")], .localMode, .str "f.csv"⟩]⟩ =
        .error (.keyError "name") ∨
      datapackage_to_dataset (fun s => s) (fun _ => "")
        ⟨[("name", Val.str "P"), ("keywords", .list [.str "k"])],
         [⟨[("name", .str "n")], .localMode, .str "f.csv"⟩]⟩ =
        .error .notImplementedError ∨
      datapackage_to_dataset (fun s => s) (fun _ => "")
        ⟨[("name", Val.str "P"), ("keywords", .list [.str "k"])],
         [⟨[("name", .str "n")], .localMode, .str "f.csv"⟩]⟩ =
        .error (.keyError "url") ∨
      datapackage_to_dataset (fun s => s) (fun _ => "")
        ⟨[("name", Val.str "P"), ("keywords", .list [.str "k"])],
         [⟨[("name", .str "n")], .localMode, .str "f.csv"⟩]⟩ =
        .error .attributeError) :=
  ⟨rfl, rfl,
   c4_error_taxonomy_amended.1 _ _ _ rfl,
   c4_error_taxonomy_amended.2 _ _ _ rfl⟩

end FCM.Claims
